import Mathlib

/-!
# Verification of the appfind version-discovery engine

Shallow embedding of `src/appfind.py` (`_glob_and_match`, `_format`) together
with proofs of the specification claims.

Modelling conventions:

* A path template string is represented structurally as a `List Piece`, where
  `Piece.ch c` is one literal character of the template and `Piece.tok t` is one
  `{t}` placeholder occurrence.  Literal segments are assumed not to contain
  brace-placeholder syntax themselves; the bracket characters `[`/`]` appear as
  ordinary `Piece.ch` entries, exactly as in the source string.
* Python `dict`s (the `app_match` records) are association lists with unique
  keys, insertion order, and in-place overwrite on assignment (`dictSet`).
* Python exceptions raised by `_glob_and_match` are the `Except PyErr` error
  channel: `click.ClickException` (line 228), `str.format`'s `KeyError`
  (line 287), and the `AttributeError` from `match.group` on a failed
  version-bracket regex (line 224).
* The filesystem is external: `glob.glob` is a parameter
  `globFn : List Char → List (List Char)` mapping the built glob pattern to the
  candidate paths, and `os.path.abspath (os.path.expanduser ·)` (line 226) is a
  parameter `absFn : PTemplate → PTemplate` (it depends on the process
  environment, not on the engine).
* `re` semantics are modelled for the exact pattern language `_glob_and_match`
  generates: literal characters (with `.` as the any-character metacharacter,
  matched case-insensitively under `re.IGNORECASE`), `(?P<t>\d+)` capture
  groups, `(?P=t)` back-references, anchored with `^...$`.  Greedy `\d+` with
  backtracking is modelled by trying the longest digit prefix first.
-/

namespace Appfind

/-! ## Python values and dictionaries -/

/-- A value stored in an `app_match` dictionary: the token integers, the
`path`/`version` strings, and the `tags` list. -/
inductive Value where
  | vint (n : Nat)
  | vstr (s : String)
  | vtags (ts : List String)
deriving DecidableEq, Repr

/-- An `app_match` record: a Python dict as an insertion-ordered association
list with unique keys. -/
abbrev AppMatch := List (String × Value)

/-- `d[k]` lookup (first entry with key `k`). -/
def dictGet? : AppMatch → String → Option Value
  | [], _ => none
  | (k', v) :: rest, k => if k' = k then some v else dictGet? rest k

/-- `d[k] = v` assignment: overwrite in place if the key exists (keeping its
position, as Python dicts do), otherwise append at the end. -/
def dictSet : AppMatch → String → Value → AppMatch
  | [], k, v => [(k, v)]
  | (k', v') :: rest, k, v =>
      if k' = k then (k, v) :: rest else (k', v') :: dictSet rest k v

/-- `d.update(kvs)`: assign every pair in order. -/
def dictUpdate (m : AppMatch) (kvs : List (String × Value)) : AppMatch :=
  kvs.foldl (fun acc kv => dictSet acc kv.1 kv.2) m

/-- Python's `v is not 0` test from lines 307/317.  For machine-small ints
produced by `int(...)` CPython interns the value, so on `vint` it is `≠ 0`;
on strings and lists it is always true. -/
def isNotZero : Value → Bool
  | .vint n => n ≠ 0
  | .vstr _ => true
  | .vtags _ => true

/-! ## Template pieces and token scanning -/

/-- One element of a template string: a literal character or a `{t}`
placeholder occurrence. -/
inductive Piece where
  | ch (c : Char)
  | tok (t : String)
deriving DecidableEq, Repr

/-- A template (or template fragment) as its list of pieces. -/
abbrev PTemplate := List Piece

/-- The token-name regex `[a-z]*` of line 233: a name consisting only of
lowercase ASCII letters (the empty name is allowed by the source pattern). -/
def isTokenName (t : String) : Bool :=
  t.data.all fun c => 'a' ≤ c && c ≤ 'z'

/-- `re.findall(r"\{([a-z]*)\}", template)` (line 234): the placeholder names
that the token regex recognises, in order of occurrence. -/
def pieceTokens (tpl : PTemplate) : List String :=
  tpl.filterMap fun p =>
    match p with
    | .tok t => if isTokenName t then some t else none
    | .ch _ => none

/-- `tokens = tokens + list(set(token_matches) - set(tokens))` (line 235),
keyed on membership.  The source materialises the new names through a Python
`set`, whose iteration order is hash-dependent; this embedding fixes the
first-seen order (every downstream use depends only on membership). -/
def addNew (acc : List String) : List String → List String
  | [] => acc
  | t :: ts => if t ∈ acc then addNew acc ts else addNew (acc ++ [t]) ts

/-- The accumulated token list over all templates (first loop of
`_glob_and_match`). -/
def collectTokens (tpls : List PTemplate) : List String :=
  tpls.foldl (fun acc tpl => addNew acc (pieceTokens tpl)) []

/-! ## Bracket handling (lines 221-231) -/

/-- Split a piece list at the first occurrence of the literal character `c`,
returning the pieces before and after it. -/
def splitAtCh (c : Char) : List Piece → Option (List Piece × List Piece)
  | [] => none
  | p :: ps =>
      if p = .ch c then some ([], ps)
      else (splitAtCh c ps).map fun pr => (p :: pr.1, pr.2)

/-- `"[" in template and "]" in template` (line 221). -/
def hasBrackets (tpl : PTemplate) : Bool :=
  tpl.contains (.ch '[') && tpl.contains (.ch ']')

/-- The version sub-template extracted by the greedy regex
`.*\[(?P<version>.*)\].*` (lines 222-224): the pieces strictly between the
last `[` that precedes the last `]` and that last `]`; `none` when the regex
fails to match (which makes the source raise `AttributeError`). -/
def extractVersionSub (tpl : PTemplate) : Option PTemplate :=
  match splitAtCh ']' tpl.reverse with
  | none => none
  | some (_, restR) =>
      match splitAtCh '[' restR with
      | none => none
      | some (vR, _) => some vR.reverse

/-- `template.replace("[", "").replace("]", "")` (line 225). -/
def stripBrackets (tpl : PTemplate) : PTemplate :=
  tpl.filter fun p => !(p == Piece.ch '[') && !(p == Piece.ch ']')

/-- An exception escaping `_glob_and_match`. -/
inductive PyErr where
  | clickError (msg : String)
  | keyError (k : String)
  | attrError
deriving DecidableEq, Repr

/-- The per-template record built by the first loop (line 230). -/
structure TDict where
  tpath : PTemplate
  tversion : PTemplate
deriving DecidableEq, Repr

/-- Lines 221-231 for one template: bracket validation, version sub-template
extraction, bracket stripping and path normalisation. -/
def parseTemplate (absFn : PTemplate → PTemplate) (raw : PTemplate) :
    Except PyErr TDict :=
  if hasBrackets raw then
    match extractVersionSub raw with
    | some tv => .ok ⟨absFn (stripBrackets raw), tv⟩
    | none => .error .attrError
  else
    .error (.clickError
      "Error: must capture the version string in the template with brackets!")

/-! ## Pattern compilation (`_format`, lines 246-269, 324-339)

`_format` replaces, for each `key` in the global token list, every `{key}` by
the back-reference text `(?P=key)` and then the first of those back-reference
occurrences by the capture group `(?P<key>\d+)`.  Since the replacement texts
of distinct keys are disjoint and introduce no new placeholders, the net effect
per placeholder occurrence is: first occurrence of a registered token becomes a
capture group, later occurrences become back-references, unregistered
placeholders survive as the literal text `{name}`. -/

/-- One element of the compiled capture pattern. -/
inductive RItem where
  | lit (cs : List Char)
  | cap (t : String)
  | bref (t : String)
deriving DecidableEq, Repr

/-- The literal text `{t}` of an unreplaced placeholder. -/
def braceChars (t : String) : List Char :=
  '{' :: t.data ++ ['}']

/-- Compile the bracket-stripped path template into capture-pattern items,
with `seen` the tokens whose capture group has already been emitted. -/
def compilePieces (tokens : List String) : List Piece → List String → List RItem
  | [], _ => []
  | .ch c :: ps, seen => .lit [c] :: compilePieces tokens ps seen
  | .tok t :: ps, seen =>
      if t ∈ tokens then
        if t ∈ seen then .bref t :: compilePieces tokens ps seen
        else .cap t :: compilePieces tokens ps (t :: seen)
      else .lit (braceChars t) :: compilePieces tokens ps seen

/-- The compiled, anchored capture pattern of lines 255-265. -/
def compileItems (tokens : List String) (tpl : PTemplate) : List RItem :=
  compilePieces tokens tpl []

/-- The glob pattern of lines 246-248: registered tokens become `*`,
unregistered placeholders stay literal. -/
def formatGlob (tokens : List String) : PTemplate → List Char
  | [] => []
  | .ch c :: ps => c :: formatGlob tokens ps
  | .tok t :: ps =>
      (if t ∈ tokens then ['*'] else braceChars t) ++ formatGlob tokens ps

/-! ## Regex matching (lines 269, 280-283)

The generated pattern is matched with `re.IGNORECASE` and `^...$` anchors.
Literal template characters are regex source characters, so `.` acts as the
any-character metacharacter; the other characters are matched
case-insensitively.  (Templates whose literal text contains further regex
metacharacters such as `*`, `+`, `(`, `\` are outside this model; theorems
about matching quantify over piece templates read literally except for `.`.) -/

/-- ASCII case folding, as `re.IGNORECASE` acts on these patterns (full
Unicode case folding of non-ASCII letters is outside this model). -/
def foldCase (c : Char) : Nat :=
  if 65 ≤ c.toNat ∧ c.toNat ≤ 90 then c.toNat + 32 else c.toNat

/-- Match of one literal pattern character against one subject character. -/
def litCharMatch (p c : Char) : Bool :=
  if p = '.' then c ≠ '\n' else foldCase p = foldCase c

/-- Consume the literal pattern text `l` from the front of `cs`, returning the
rest of the subject on success. -/
def eatLit : List Char → List Char → Option (List Char)
  | [], cs => some cs
  | _ :: _, [] => none
  | p :: ps, c :: cs => if litCharMatch p c then eatLit ps cs else none

/-- The capture environment: group name to matched digit text, most recent
binding first. -/
abbrev Env := List (String × List Char)

/-- Look up a group's matched text. -/
def lookupEnv : Env → String → Option (List Char)
  | [], _ => none
  | (k, v) :: rest, t => if k = t then some v else lookupEnv rest t

/-- Try `f n`, `f (n-1)`, ..., `f 1` and return the first success: the
backtracking order of a greedy `\d+`. -/
def firstSome (f : Nat → Option Env) : Nat → Option Env
  | 0 => none
  | n + 1 =>
      match f (n + 1) with
      | some e => some e
      | none => firstSome f n

/-- Anchored match of the compiled pattern against a subject, threading the
capture environment.  `cap t` consumes a nonempty digit prefix (longest first,
with backtracking); `bref t` re-consumes the text captured for `t`; a failed
consumption propagates as `none`. -/
def reMatch : List RItem → List Char → Env → Option Env
  | [], cs, e => if cs.isEmpty then some e else none
  | .lit l :: rest, cs, e =>
      (eatLit l cs).bind fun cs' => reMatch rest cs' e
  | .bref t :: rest, cs, e =>
      (lookupEnv e t).bind fun v =>
        (eatLit v cs).bind fun cs' => reMatch rest cs' e
  | .cap t :: rest, cs, e =>
      firstSome (fun n => reMatch rest (cs.drop n) ((t, cs.take n) :: e))
        (cs.takeWhile Char.isDigit).length

/-! ## Building one `AppMatch` (lines 285-293) -/

/-- `int(v)` on a digit string. -/
def digitsToNat (cs : List Char) : Nat :=
  cs.foldl (fun a c => a * 10 + (c.toNat - '0'.toNat)) 0

/-- `tversion.format(**token_matches)` (line 287): every placeholder of the
version sub-template is a format field looked up in the captured token
mapping; a missing name raises `KeyError`. -/
def renderPieces : PTemplate → List (String × Nat) → Except PyErr (List Char)
  | [], _ => .ok []
  | .ch c :: ps, e => (renderPieces ps e).map fun r => c :: r
  | .tok t :: ps, e =>
      match List.lookup t e with
      | some n => (renderPieces ps e).map fun r => (Nat.repr n).data ++ r
      | none => .error (.keyError t)

/-- The rendered version string. -/
def renderVersion (tv : PTemplate) (e : List (String × Nat)) :
    Except PyErr String :=
  (fun cs => String.mk cs) <$> renderPieces tv e

/-- The captured token→integer mapping `{k: int(v)}` of line 286. -/
def intOfEnv (env : Env) : List (String × Nat) :=
  env.map fun kv => (kv.1, digitsToNat kv.2)

/-- Lines 285-293: convert the captured digit strings to integers, render the
version, copy the zero-filled token record, set `path` and `version`, and merge
the captured token values over it (a rendering exception propagates). -/
def buildMatch (amt : AppMatch) (tv : PTemplate) (path : List Char) (env : Env) :
    Except PyErr AppMatch :=
  (renderVersion tv (intOfEnv env)).map fun version =>
    dictUpdate
      (dictSet (dictSet amt "path" (.vstr (String.mk path))) "version"
        (.vstr version))
      ((intOfEnv env).map fun kv => (kv.1, Value.vint kv.2))

/-! ## The discovery loops (lines 213-293) -/

/-- The first loop over templates (lines 219-235): parse each in order,
failing fast at the first bad template. -/
def parseAll (absFn : PTemplate → PTemplate) :
    List PTemplate → Except PyErr (List TDict)
  | [] => .ok []
  | raw :: rest =>
      (parseTemplate absFn raw).bind fun td =>
        (parseAll absFn rest).map fun tds => td :: tds

/-- The inner loop over glob candidates (lines 277-293): paths that fail the
capture pattern are skipped, matches are appended in glob order, and a
rendering exception aborts. -/
def matchLoop (amt : AppMatch) (tv : PTemplate) (items : List RItem) :
    List (List Char) → List AppMatch → Except PyErr (List AppMatch)
  | [], acc => .ok acc
  | p :: ps, acc =>
      match reMatch items p [] with
      | none => matchLoop amt tv items ps acc
      | some env =>
          (buildMatch amt tv p env).bind fun m =>
            matchLoop amt tv items ps (acc ++ [m])

/-- The outer loop of lines 244-293 over the parsed templates. -/
def globLoop (tokens : List String) (amt : AppMatch)
    (globFn : List Char → List (List Char)) :
    List TDict → List AppMatch → Except PyErr (List AppMatch)
  | [], acc => .ok acc
  | td :: rest, acc =>
      (matchLoop amt td.tversion (compileItems tokens td.tpath)
          (globFn (formatGlob tokens td.tpath)) acc).bind fun acc' =>
        globLoop tokens amt globFn rest acc'

/-- Both discovery loops: parse every template (fail fast), collect the global
token list, zero-fill the match record template (line 240), then glob and
match each template in order. -/
def collectAllMatches (templates : List PTemplate)
    (globFn : List Char → List (List Char)) (absFn : PTemplate → PTemplate) :
    Except PyErr (List AppMatch) :=
  (parseAll absFn templates).bind fun tdicts =>
    globLoop (collectTokens templates)
      ((collectTokens templates).map fun t => (t, Value.vint 0)) globFn
      tdicts []

/-! ## Sorting (lines 295-298) -/

/-- The stored value of a token key, as the integer it holds.  For the keys the
theorems use this is always a `vint` entry (Python would raise `KeyError` or
`TypeError` otherwise); the fallback value is junk. -/
def tokenVal (m : AppMatch) (t : String) : Nat :=
  match dictGet? m t with
  | some (.vint n) => n
  | _ => 0

/-- The stored `version` string (a `vstr` entry for every record the code
builds; the fallback value is junk). -/
def versionStr (m : AppMatch) : String :=
  match dictGet? m "version" with
  | some (.vstr s) => s
  | _ => ""

/-- `operator.itemgetter(*tsort)`: the tuple of token values in `tsort` order. -/
def sortKey (tsort : List String) (m : AppMatch) : List Nat :=
  tsort.map (tokenVal m)

/-- Lexicographic `≤` on equal-length integer tuples (Python tuple order). -/
def keyLE : List Nat → List Nat → Bool
  | [], _ => true
  | _ :: _, [] => false
  | a :: as, b :: bs => a < b || (a == b && keyLE as bs)

/-- Boolean `≤` on strings (Python's code-point comparison of `version`
strings; Lean's `String` order is the same character-lexicographic order). -/
def strLE (a b : String) : Bool := a ≤ b

/-- `a` may precede `b` in a descending sort by `key`: the comparison
`sorted(..., key=key, reverse=True)` orders by. -/
def descRel {α κ : Type} (key : α → κ) (le : κ → κ → Bool) (a b : α) : Prop :=
  le (key b) (key a) = true

instance {α κ : Type} (key : α → κ) (le : κ → κ → Bool) :
    DecidableRel (descRel key le) := fun _ _ => by
  unfold descRel
  infer_instance

/-- `sorted(app_matches, key=..., reverse=True)` (lines 295-298): a stable
sort, descending by the token tuple when `tsort` is non-empty and by the
version string otherwise; empty lists are left untouched. -/
def sortMatches (tsort : List String) (ms : List AppMatch) : List AppMatch :=
  if ms.isEmpty then ms
  else if !tsort.isEmpty then
    List.insertionSort (descRel (sortKey tsort) keyLE) ms
  else
    List.insertionSort (descRel versionStr strLE) ms

/-! ## Tagging (lines 300-321) -/

/-- Python truthiness of the `vdefault` option (line 308/313): absent or the
empty string are falsy. -/
def vdTruthy : Option String → Bool
  | none => false
  | some d => d ≠ ""

/-- `vdefault == app_match["version"]` (line 313): a Python `==` between a
string and the stored value; unequal types compare unequal. -/
def valEqStr (d : String) : Option Value → Bool
  | some (.vstr s) => d == s
  | _ => false

/-- `[k for k, v in app_match.items() if v is not 0]` (line 307). -/
def nonzeroKeys (m : AppMatch) : List String :=
  (m.filter fun kv => isNotZero kv.2).map Prod.fst

/-- `any(x in prtokens for x in nonzeroKeys)` (line 307): the match carries a
still-pending pre-release marker. -/
def carriesMarker (m : AppMatch) (pend : List String) : Bool :=
  (nonzeroKeys m).any fun k => pend.contains k

/-- `[k for k, v in app_match.items() if (v is not 0 and k in prtokens)]`
(line 317). -/
def prHits (m : AppMatch) (pend : List String) : List String :=
  (m.filter fun kv => isNotZero kv.2 && pend.contains kv.1).map Prod.fst

/-- `app_match["tags"].append(t)`.  The `tags` entry always exists when the
loop appends (it was just assigned `[]`); the fallback branch is junk. -/
def appendTag (m : AppMatch) (t : String) : AppMatch :=
  match dictGet? m "tags" with
  | some (.vtags ts) => dictSet m "tags" (.vtags (ts ++ [t]))
  | _ => m

/-- The body of the tagging loop for one match (lines 305-319), returning the
updated record and the new `(found_latest, found_default, prtokens)` state. -/
def tagStep (vd : Option String) (m0 : AppMatch) (fl fd : Bool)
    (pend : List String) : AppMatch × Bool × Bool × List String :=
  let m1 := dictSet m0 "tags" (.vtags [])
  let mk := carriesMarker m1 pend
  let (m2, fl2) :=
    if !fl && !mk then
      let ma := if !vdTruthy vd then appendTag m1 "default" else m1
      (appendTag ma "latest", true)
    else (m1, fl)
  let (m3, fd2) :=
    if vdTruthy vd && valEqStr (vd.getD "") (dictGet? m2 "version") then
      (appendTag m2 "default", true)
    else (m2, fd)
  let hits := prHits m3 pend
  (hits.foldl appendTag m3, fl2, fd2, hits.foldl List.erase pend)

/-- The tagging loop (lines 300-321).  The loop mutates the scanned prefix in
place and breaks out — leaving the remaining records untouched, without even a
`tags` entry — once `latest` and `default` are found and no pre-release token
is pending. -/
def tagLoop (vd : Option String) :
    List AppMatch → Bool → Bool → List String → List AppMatch
  | [], _, _, _ => []
  | m :: ms, fl, fd, pend =>
      if fl && fd && pend.isEmpty then m :: ms
      else
        let r := tagStep vd m fl fd pend
        r.1 :: tagLoop vd ms r.2.1 r.2.2.1 r.2.2.2

/-- `_glob_and_match` end to end: discover, sort, tag. -/
def globAndMatch (templates : List PTemplate)
    (globFn : List Char → List (List Char)) (absFn : PTemplate → PTemplate)
    (prtokens tsort : List String) (vdefault : Option String) :
    Except PyErr (List AppMatch) :=
  (collectAllMatches templates globFn absFn).map fun ms =>
    tagLoop vdefault (sortMatches tsort ms) false false prtokens

/-! ## Specification-side definitions

These definitions are used to *state* the claims; they do not replace any
source code. -/

/-- The tag list of a record (`[]` also when the `tags` key is absent, as for
records the tagging loop never reached). -/
def hasTag (m : AppMatch) (t : String) : Bool :=
  match dictGet? m "tags" with
  | some (.vtags ts) => ts.contains t
  | _ => false

/-- The truthy `vdefault == app_match["version"]` test of line 313 as a
single predicate. -/
def vdEq (vd : Option String) (m : AppMatch) : Bool :=
  vdTruthy vd && valEqStr (vd.getD "") (dictGet? m "version")

/-- The pre-release marker test of line 307, evaluated (as the source does) on
the record just after `app_match["tags"] = []`. -/
def markerAt (m : AppMatch) (pend : List String) : Bool :=
  carriesMarker (dictSet m "tags" (.vtags [])) pend

/-- The line-317 hit list, evaluated on the record with its `tags` entry. -/
def hitsAt (m : AppMatch) (pend : List String) : List String :=
  prHits (dictSet m "tags" (.vtags [])) pend

/-- The pending pre-release list after one match is processed. -/
def stepPend (m : AppMatch) (pend : List String) : List String :=
  (hitsAt m pend).foldl List.erase pend

/-- The pending pre-release list just before the `i`-th match of the scan.
(The early break can only fire when the pending list is already empty, after
which it stays empty, so this break-free evolution is the actual one.) -/
def pendAt : List String → List AppMatch → Nat → List String
  | pend, _, 0 => pend
  | pend, [], _ + 1 => pend
  | pend, m :: ms, i + 1 => pendAt (stepPend m pend) ms i

/-- The tags the latest-branch (lines 307-311) adds to the current match. -/
def ltagsOf (vd : Option String) (fl : Bool) (m : AppMatch)
    (pend : List String) : List String :=
  if !fl && !markerAt m pend then
    (if !vdTruthy vd then ["default"] else []) ++ ["latest"]
  else []

/-- The tags the explicit-default branch (lines 312-315) adds. -/
def dtagsOf (vd : Option String) (m : AppMatch) : List String :=
  if vdEq vd m then ["default"] else []

/-- The number of matches the tagging loop processes before its early break
(the whole list when the break never fires). -/
def stopIdx (vd : Option String) :
    List AppMatch → Bool → Bool → List String → Nat
  | [], _, _, _ => 0
  | m :: ms, fl, fd, pend =>
      if fl && fd && pend.isEmpty then 0
      else 1 + stopIdx vd ms (fl || !markerAt m pend) (fd || vdEq vd m)
        (stepPend m pend)

/-- The tagging pass of the specification's §4.4, scanning the entire sorted
sequence: identical to `tagLoop` with the early break removed.  (Definition
follows the spec's words, for the refinement claim comparing it with the
source's `tagLoop`.) -/
def tagLoopNoBreak (vd : Option String) :
    List AppMatch → Bool → Bool → List String → List AppMatch
  | [], _, _, _ => []
  | m :: ms, fl, fd, pend =>
      let r := tagStep vd m fl fd pend
      r.1 :: tagLoopNoBreak vd ms r.2.1 r.2.2.1 r.2.2.2

/-- The first entry stored under key `k` is a non-`0` value (the claim-side
reading of "the match has this token with a non-zero value"). -/
def nonzeroEntry (m : AppMatch) (k : String) : Bool :=
  match dictGet? m k with
  | some v => isNotZero v
  | none => false

/-- The integer-valued entries of a record: the token-values mapping of a
built match. -/
def intEntries (m : AppMatch) : List (String × Nat) :=
  m.filterMap fun kv =>
    match kv.2 with
    | .vint n => some (kv.1, n)
    | _ => none

/-- Names of the capture groups of a compiled pattern. -/
def capNames : List RItem → List String
  | [] => []
  | .cap t :: rest => t :: capNames rest
  | _ :: rest => capNames rest

/-- Well-formed compiled patterns, relative to the set of already-bound group
names: every back-reference refers to a bound group, and no capture group
shadows a bound one. -/
def wfItems : List RItem → List String → Prop
  | [], _ => True
  | .lit _ :: rest, b => wfItems rest b
  | .cap t :: rest, b => t ∉ b ∧ wfItems rest (t :: b)
  | .bref t :: rest, b => t ∈ b ∧ wfItems rest b

/-- Declarative match of a literal pattern segment against a subject segment
of the same length, character by character. -/
inductive LitsMatch : List Char → List Char → Prop
  | nil : LitsMatch [] []
  | cons {p c : Char} {l cs : List Char} :
      litCharMatch p c = true → LitsMatch l cs → LitsMatch (p :: l) (c :: cs)

/-- Declarative, anchored semantics of the capture pattern under a token
assignment `σ`: the subject is the concatenation of the pattern's pieces,
where every occurrence (capture or back-reference) of token `t` is filled with
the same nonempty digit string `σ t`, and literal segments match
case-insensitively (with `.` as the any-character metacharacter). -/
inductive Fills (σ : String → List Char) : List RItem → List Char → Prop
  | nil : Fills σ [] []
  | lit {l cs rest tail} : LitsMatch l cs → Fills σ rest tail →
      Fills σ (.lit l :: rest) (cs ++ tail)
  | cap {t rest tail} : σ t ≠ [] → (∀ c ∈ σ t, c.isDigit = true) →
      Fills σ rest tail → Fills σ (.cap t :: rest) (σ t ++ tail)
  | bref {t rest tail} : σ t ≠ [] → (∀ c ∈ σ t, c.isDigit = true) →
      Fills σ rest tail → Fills σ (.bref t :: rest) (σ t ++ tail)

/-! ## Dictionary lemmas -/

theorem dictGet?_cons (k' : String) (v : Value) (rest : AppMatch) (k : String) :
    dictGet? ((k', v) :: rest) k = if k' = k then some v else dictGet? rest k :=
  rfl

theorem dictSet_cons (k' : String) (v' : Value) (rest : AppMatch) (k : String)
    (v : Value) :
    dictSet ((k', v') :: rest) k v =
      if k' = k then (k, v) :: rest else (k', v') :: dictSet rest k v :=
  rfl

theorem dictGet?_dictSet_self (m : AppMatch) (k : String) (v : Value) :
    dictGet? (dictSet m k v) k = some v := by
  induction m with
  | nil => simp [dictSet, dictGet?]
  | cons kv rest ih =>
      obtain ⟨k', v'⟩ := kv
      rw [dictSet_cons]
      by_cases h : k' = k
      · rw [if_pos h, dictGet?_cons]
        simp
      · rw [if_neg h, dictGet?_cons, if_neg h]
        exact ih

theorem dictGet?_dictSet_ne (m : AppMatch) (k k' : String) (v : Value)
    (h : k ≠ k') : dictGet? (dictSet m k v) k' = dictGet? m k' := by
  induction m with
  | nil =>
      simp only [dictSet, dictGet?]
      rw [if_neg h]
  | cons kv rest ih =>
      obtain ⟨k0, v0⟩ := kv
      rw [dictSet_cons]
      by_cases hk : k0 = k
      · rw [if_pos hk, dictGet?_cons, dictGet?_cons, if_neg h,
          if_neg (fun e => h (hk.symm.trans e))]
      · rw [if_neg hk, dictGet?_cons, dictGet?_cons]
        by_cases hk' : k0 = k'
        · rw [if_pos hk', if_pos hk']
        · rw [if_neg hk', if_neg hk']
          exact ih

theorem dictSet_dictSet_same (m : AppMatch) (k : String) (v v' : Value) :
    dictSet (dictSet m k v) k v' = dictSet m k v' := by
  induction m with
  | nil => simp [dictSet]
  | cons kv rest ih =>
      obtain ⟨k0, v0⟩ := kv
      rw [dictSet_cons]
      by_cases h : k0 = k
      · rw [if_pos h, dictSet_cons, if_pos rfl, dictSet_cons, if_pos h]
      · rw [if_neg h, dictSet_cons, if_neg h, dictSet_cons, if_neg h, ih]

theorem dictSet_of_absent (m : AppMatch) (k : String) (v : Value)
    (h : dictGet? m k = none) : dictSet m k v = m ++ [(k, v)] := by
  induction m with
  | nil => simp [dictSet]
  | cons kv rest ih =>
      obtain ⟨k0, v0⟩ := kv
      rw [dictGet?_cons] at h
      by_cases hk : k0 = k
      · rw [if_pos hk] at h
        cases h
      · rw [if_neg hk] at h
        rw [dictSet_cons, if_neg hk, ih h]
        rfl

theorem dictGet?_dictUpdate_notMem (m : AppMatch)
    (kvs : List (String × Value)) (k : String)
    (h : k ∉ kvs.map Prod.fst) : dictGet? (dictUpdate m kvs) k = dictGet? m k := by
  induction kvs generalizing m with
  | nil => rfl
  | cons kv rest ih =>
      simp only [List.map_cons, List.mem_cons] at h
      push_neg at h
      have : dictUpdate m (kv :: rest) = dictUpdate (dictSet m kv.1 kv.2) rest := rfl
      rw [this, ih _ h.2, dictGet?_dictSet_ne _ _ _ _ (fun e => h.1 e.symm)]

theorem dictGet?_dictUpdate_mem (m : AppMatch) (kvs : List (String × Value))
    (k : String) (v : Value) (hnd : (kvs.map Prod.fst).Nodup)
    (hmem : (k, v) ∈ kvs) : dictGet? (dictUpdate m kvs) k = some v := by
  induction kvs generalizing m with
  | nil => cases hmem
  | cons kv rest ih =>
      simp only [List.map_cons, List.nodup_cons] at hnd
      have hupd : dictUpdate m (kv :: rest) = dictUpdate (dictSet m kv.1 kv.2) rest := rfl
      rcases List.mem_cons.mp hmem with he | hrest
      · subst he
        have : k ∉ rest.map Prod.fst := hnd.1
        rw [hupd, dictGet?_dictUpdate_notMem _ _ _ this, dictGet?_dictSet_self]
      · exact hupd ▸ ih (dictSet m kv.1 kv.2) hnd.2 hrest

theorem lookupEnv_eq_some_mem {env : Env} {t : String} {v : List Char}
    (h : lookupEnv env t = some v) : (t, v) ∈ env := by
  induction env with
  | nil => simp [lookupEnv] at h
  | cons kv rest ih =>
      by_cases hk : kv.1 = t
      · simp only [lookupEnv] at h
        rw [if_pos hk] at h
        cases h
        rw [← hk]
        exact List.mem_cons_self _ _
      · simp only [lookupEnv] at h
        rw [if_neg hk] at h
        exact List.mem_cons_of_mem _ (ih h)

theorem lookupEnv_isSome_of_mem {env : Env} {t : String}
    (h : t ∈ env.map Prod.fst) : ∃ v, lookupEnv env t = some v := by
  induction env with
  | nil => simp at h
  | cons kv rest ih =>
      by_cases hk : kv.1 = t
      · exact ⟨kv.2, by simp [lookupEnv, hk]⟩
      · simp only [List.map_cons, List.mem_cons] at h
        rcases h with h | h
        · exact absurd h.symm hk
        · simpa [lookupEnv, hk] using ih h

/-- The first `vint` entry under a key seen through `intEntries` is the
first entry under that key when that entry holds a `vint`. -/
theorem lookup_intEntries (m : AppMatch) (k : String) (n : Nat)
    (h : dictGet? m k = some (.vint n)) :
    List.lookup k (intEntries m) = some n := by
  induction m with
  | nil => simp [dictGet?] at h
  | cons kv rest ih =>
      obtain ⟨k0, v0⟩ := kv
      rw [dictGet?_cons] at h
      by_cases hk : k0 = k
      · rw [if_pos hk] at h
        cases h
        subst hk
        simp [intEntries, List.lookup]
      · rw [if_neg hk] at h
        have hbeq : (k == k0) = false := by
          simp only [beq_eq_false_iff_ne, ne_eq]
          exact fun e => hk e.symm
        cases v0 with
        | vint j =>
            simp only [intEntries, List.filterMap_cons] at *
            simpa [List.lookup, hbeq] using ih h
        | vstr s => simpa [intEntries, List.filterMap_cons] using ih h
        | vtags ts => simpa [intEntries, List.filterMap_cons] using ih h

/-! ## Stable descending sort lemmas -/

section StableSort

variable {α κ : Type}

theorem filter_orderedInsert_key [DecidableEq κ] (key : α → κ)
    (le : κ → κ → Bool) (hrefl : ∀ k, le k k = true) (a : α) (l : List α)
    (k : κ) :
    (l.orderedInsert (descRel key le) a).filter (fun x => decide (key x = k)) =
      if key a = k then a :: l.filter (fun x => decide (key x = k))
      else l.filter (fun x => decide (key x = k)) := by
  induction l with
  | nil =>
      by_cases hk : key a = k <;> simp [List.orderedInsert, List.filter, hk]
  | cons b t ih =>
      rw [List.orderedInsert]
      by_cases hr : descRel key le a b
      · rw [if_pos hr]
        by_cases hk : key a = k <;> simp [List.filter, hk]
      · rw [if_neg hr]
        by_cases hbk : key b = k
        · have hak : ¬(key a = k) := by
            intro he
            apply hr
            show le (key b) (key a) = true
            rw [he, hbk]
            exact hrefl k
          simp [List.filter, hbk, hak, ih]
        · simp [List.filter, hbk, ih]

theorem filter_insertionSort_key [DecidableEq κ] (key : α → κ)
    (le : κ → κ → Bool) (hrefl : ∀ k, le k k = true) (l : List α) (k : κ) :
    (l.insertionSort (descRel key le)).filter (fun x => decide (key x = k)) =
      l.filter (fun x => decide (key x = k)) := by
  induction l with
  | nil => rfl
  | cons a t ih =>
      rw [List.insertionSort, filter_orderedInsert_key key le hrefl, ih]
      by_cases hk : key a = k <;> simp [List.filter, hk]

theorem sorted_insertionSort_desc (key : α → κ) (le : κ → κ → Bool)
    (htot : ∀ x y, le x y = true ∨ le y x = true)
    (htrans : ∀ x y z, le x y = true → le y z = true → le x z = true)
    (l : List α) :
    (l.insertionSort (descRel key le)).Sorted (descRel key le) := by
  haveI : IsTotal α (descRel key le) :=
    ⟨fun a b => (htot (key b) (key a)).imp (fun h => h) (fun h => h)⟩
  haveI : IsTrans α (descRel key le) :=
    ⟨fun a b c hab hbc => htrans (key c) (key b) (key a) hbc hab⟩
  exact List.sorted_insertionSort _ l

end StableSort

/-! ## Properties of the key comparisons -/

theorem keyLE_refl (l : List Nat) : keyLE l l = true := by
  induction l with
  | nil => rfl
  | cons a t ih => simp [keyLE, ih]

theorem keyLE_total (l l' : List Nat) :
    keyLE l l' = true ∨ keyLE l' l = true := by
  induction l generalizing l' with
  | nil => exact Or.inl rfl
  | cons a t ih =>
      cases l' with
      | nil => exact Or.inr rfl
      | cons b t' =>
          rcases Nat.lt_trichotomy a b with h | h | h
          · exact Or.inl (by simp [keyLE, h])
          · subst h
            rcases ih t' with ht | ht
            · exact Or.inl (by simp [keyLE, ht])
            · exact Or.inr (by simp [keyLE, ht])
          · exact Or.inr (by simp [keyLE, h])

theorem keyLE_trans (l₁ l₂ l₃ : List Nat) (h₁ : keyLE l₁ l₂ = true)
    (h₂ : keyLE l₂ l₃ = true) : keyLE l₁ l₃ = true := by
  induction l₁ generalizing l₂ l₃ with
  | nil => rfl
  | cons a t ih =>
      cases l₂ with
      | nil => simp [keyLE] at h₁
      | cons b t₂ =>
          cases l₃ with
          | nil => simp [keyLE] at h₂
          | cons c t₃ =>
              simp only [keyLE, Bool.or_eq_true, Bool.and_eq_true,
                decide_eq_true_eq, beq_iff_eq] at h₁ h₂ ⊢
              rcases h₁ with h₁ | ⟨rfl, h₁⟩
              · rcases h₂ with h₂ | ⟨rfl, _⟩
                · exact Or.inl (h₁.trans h₂)
                · exact Or.inl h₁
              · rcases h₂ with h₂ | ⟨rfl, h₂⟩
                · exact Or.inl h₂
                · exact Or.inr ⟨rfl, ih _ _ h₁ h₂⟩

theorem strLE_refl (s : String) : strLE s s = true := by
  simp [strLE]

theorem strLE_total (a b : String) : strLE a b = true ∨ strLE b a = true := by
  simp only [strLE, decide_eq_true_eq]
  exact le_total a b

theorem strLE_trans (a b c : String) (h₁ : strLE a b = true)
    (h₂ : strLE b c = true) : strLE a c = true := by
  simp only [strLE, decide_eq_true_eq] at *
  exact le_trans h₁ h₂

/-! ## Tagging-loop lemmas -/

theorem nonzeroKeys_cons (k : String) (v : Value) (rest : AppMatch) :
    nonzeroKeys ((k, v) :: rest) =
      (if isNotZero v then [k] else []) ++ nonzeroKeys rest := by
  by_cases h : isNotZero v = true
  · simp only [nonzeroKeys, List.filter_cons, h, if_pos, List.map_cons]
    rfl
  · simp only [nonzeroKeys, List.filter_cons]
    rw [if_neg (by simpa using h), if_neg h, List.nil_append]

theorem prHits_cons (k : String) (v : Value) (rest : AppMatch)
    (pend : List String) :
    prHits ((k, v) :: rest) pend =
      (if isNotZero v && pend.contains k then [k] else []) ++ prHits rest pend := by
  by_cases h : (isNotZero v && pend.contains k) = true
  · simp only [prHits, List.filter_cons]
    rw [if_pos h, if_pos h, List.map_cons, List.singleton_append]
  · simp only [prHits, List.filter_cons]
    rw [if_neg (by simpa using h), if_neg h, List.nil_append]

theorem nonzeroKeys_append (a b : AppMatch) :
    nonzeroKeys (a ++ b) = nonzeroKeys a ++ nonzeroKeys b := by
  simp [nonzeroKeys, List.filter_append]

theorem prHits_append (a b : AppMatch) (pend : List String) :
    prHits (a ++ b) pend = prHits a pend ++ prHits b pend := by
  simp [prHits, List.filter_append]

theorem carriesMarker_append (a b : AppMatch) (pend : List String) :
    carriesMarker (a ++ b) pend =
      (carriesMarker a pend || carriesMarker b pend) := by
  simp [carriesMarker, nonzeroKeys_append, List.any_append]

theorem prHits_subset_pend {m : AppMatch} {pend : List String} {x : String}
    (h : x ∈ prHits m pend) : x ∈ pend := by
  induction m with
  | nil => simp [prHits] at h
  | cons kv rest ih =>
      obtain ⟨k, v⟩ := kv
      rw [prHits_cons] at h
      rcases List.mem_append.mp h with h | h
      · by_cases hc : isNotZero v && pend.contains k
        · rw [if_pos hc] at h
          rcases List.mem_singleton.mp h with rfl
          have := (Bool.and_eq_true _ _).mp hc
          simpa using this.2
        · rw [if_neg hc] at h
          cases h
      · exact ih h

theorem prHits_subset_keys {m : AppMatch} {pend : List String} {x : String}
    (h : x ∈ prHits m pend) : x ∈ m.map Prod.fst := by
  induction m with
  | nil => simp [prHits] at h
  | cons kv rest ih =>
      obtain ⟨k, v⟩ := kv
      rw [prHits_cons] at h
      rcases List.mem_append.mp h with h | h
      · by_cases hc : isNotZero v && pend.contains k
        · rw [if_pos hc] at h
          rcases List.mem_singleton.mp h with rfl
          simp
        · rw [if_neg hc] at h
          cases h
      · simpa using Or.inr (ih h)

/-- Membership in the line-317 hit list, for a record with unique keys: the
key's (unique) entry is non-zero and the key is pending. -/
theorem mem_prHits_iff {m : AppMatch} {pend : List String} {x : String}
    (hnd : (m.map Prod.fst).Nodup) :
    x ∈ prHits m pend ↔
      (nonzeroEntry m x = true ∧ pend.contains x = true) := by
  induction m with
  | nil => simp [prHits, nonzeroEntry, dictGet?]
  | cons kv rest ih =>
      obtain ⟨k, v⟩ := kv
      simp only [List.map_cons, List.nodup_cons] at hnd
      rw [prHits_cons]
      by_cases hk : k = x
      · subst hk
        have hnot : k ∉ prHits rest pend := fun hmem => hnd.1 (prHits_subset_keys hmem)
        constructor
        · intro h
          rcases List.mem_append.mp h with h | h
          · by_cases hc : isNotZero v && pend.contains k
            · have := (Bool.and_eq_true _ _).mp hc
              exact ⟨by simp [nonzeroEntry, dictGet?_cons, this.1], this.2⟩
            · rw [if_neg hc] at h
              cases h
          · exact absurd h hnot
        · rintro ⟨h1, h2⟩
          have hv : isNotZero v = true := by
            simpa [nonzeroEntry, dictGet?_cons] using h1
          rw [if_pos (show (isNotZero v && pend.contains k) = true by
            rw [hv, h2]; rfl)]
          simp
      · have hne : nonzeroEntry ((k, v) :: rest) x = nonzeroEntry rest x := by
          simp [nonzeroEntry, dictGet?_cons, hk]
        rw [hne]
        constructor
        · intro h
          rcases List.mem_append.mp h with h | h
          · by_cases hc : isNotZero v && pend.contains k
            · rw [if_pos hc] at h
              exact absurd (List.mem_singleton.mp h).symm hk
            · rw [if_neg hc] at h
              cases h
          · exact (ih hnd.2).mp h
        · intro h
          exact List.mem_append.mpr (Or.inr ((ih hnd.2).mpr h))

theorem appendTag_eq (m : AppMatch) (ts : List String) (t : String) :
    appendTag (dictSet m "tags" (.vtags ts)) t =
      dictSet m "tags" (.vtags (ts ++ [t])) := by
  simp [appendTag, dictGet?_dictSet_self, dictSet_dictSet_same]

theorem foldl_appendTag (hs : List String) (m : AppMatch) (ts : List String) :
    hs.foldl appendTag (dictSet m "tags" (.vtags ts)) =
      dictSet m "tags" (.vtags (ts ++ hs)) := by
  induction hs generalizing ts with
  | nil => simp
  | cons h tl ih =>
      rw [List.foldl_cons, appendTag_eq, ih]
      simp

theorem prHits_dictSet_tags (m : AppMatch) (pend : List String)
    (ts ts' : List String) :
    prHits (dictSet m "tags" (.vtags ts)) pend =
      prHits (dictSet m "tags" (.vtags ts')) pend := by
  induction m with
  | nil =>
      by_cases hp : pend.contains "tags" = true <;>
        simp [dictSet, prHits_cons, isNotZero, hp]
  | cons kv rest ih =>
      obtain ⟨k, v⟩ := kv
      by_cases hk : k = "tags"
      · subst hk
        by_cases hp : pend.contains "tags" = true <;>
          simp [dictSet_cons, prHits_cons, isNotZero, hp]
      · rw [dictSet_cons, if_neg hk, dictSet_cons, if_neg hk, prHits_cons,
          prHits_cons, ih]

/-- The one-match body of the tagging loop, in closed form. -/
theorem tagStep_eq (vd : Option String) (m : AppMatch) (fl fd : Bool)
    (pend : List String) :
    tagStep vd m fl fd pend =
      (dictSet m "tags"
          (.vtags (ltagsOf vd fl m pend ++ dtagsOf vd m ++ hitsAt m pend)),
        fl || !markerAt m pend, fd || vdEq vd m, stepPend m pend) := by
  have hver : ∀ ts : List String,
      dictGet? (dictSet m "tags" (Value.vtags ts)) "version" =
        dictGet? m "version" :=
    fun ts => dictGet?_dictSet_ne _ _ _ _ (by decide)
  have hhits : ∀ ts : List String,
      prHits (dictSet m "tags" (Value.vtags ts)) pend = hitsAt m pend :=
    fun ts => prHits_dictSet_tags m pend ts []
  cases hfl : fl <;>
    cases hmk : carriesMarker (dictSet m "tags" (Value.vtags [])) pend <;>
      cases hvt : vdTruthy vd <;>
        cases hveq : valEqStr (vd.getD "") (dictGet? m "version") <;>
          simp [tagStep, markerAt, ltagsOf, dtagsOf, vdEq, stepPend, hfl, hmk,
            hvt, hveq, hver, hhits, appendTag_eq, foldl_appendTag]

theorem tagLoop_cons (vd : Option String) (m : AppMatch) (ms : List AppMatch)
    (fl fd : Bool) (pend : List String) :
    tagLoop vd (m :: ms) fl fd pend =
      if fl && fd && pend.isEmpty then m :: ms
      else
        dictSet m "tags"
            (.vtags (ltagsOf vd fl m pend ++ dtagsOf vd m ++ hitsAt m pend)) ::
          tagLoop vd ms (fl || !markerAt m pend) (fd || vdEq vd m)
            (stepPend m pend) := by
  rw [tagLoop]
  by_cases h : (fl && fd && pend.isEmpty) = true
  · rw [if_pos h, if_pos h]
  · rw [if_neg h, if_neg h]
    simp only [tagStep_eq]

theorem tagLoop_length (vd : Option String) :
    ∀ (ms : List AppMatch) (fl fd : Bool) (pend : List String),
      (tagLoop vd ms fl fd pend).length = ms.length := by
  intro ms
  induction ms with
  | nil => intro fl fd pend; rfl
  | cons m rest ih =>
      intro fl fd pend
      rw [tagLoop_cons]
      by_cases h : (fl && fd && pend.isEmpty) = true
      · rw [if_pos h]
      · rw [if_neg h]
        simp [ih]

theorem hasTag_of_clean {m : AppMatch} (h : dictGet? m "tags" = none)
    (t : String) : hasTag m t = false := by
  simp [hasTag, h]

theorem hasTag_dictSet_tags (m : AppMatch) (ts : List String) (t : String) :
    hasTag (dictSet m "tags" (.vtags ts)) t = ts.contains t := by
  simp [hasTag, dictGet?_dictSet_self]

theorem hasTag_nil (t : String) : hasTag ([] : AppMatch) t = false := rfl

theorem contains_eq_false_of_not_mem {l : List String} {x : String}
    (h : x ∉ l) : l.contains x = false := by
  simpa using h

theorem foldl_erase_subset (hs : List String) :
    ∀ (pend : List String), ∀ x ∈ hs.foldl List.erase pend, x ∈ pend := by
  induction hs with
  | nil => intro pend x hx; exact hx
  | cons h tl ih =>
      intro pend x hx
      exact List.mem_of_mem_erase (ih (pend.erase h) x hx)

theorem stepPend_subset {m : AppMatch} {pend : List String} {x : String}
    (h : x ∈ stepPend m pend) : x ∈ pend :=
  foldl_erase_subset _ _ _ h

theorem stepPend_nodup (m : AppMatch) {pend : List String} (h : pend.Nodup) :
    (stepPend m pend).Nodup := by
  unfold stepPend
  generalize hitsAt m pend = hs
  induction hs generalizing pend with
  | nil => exact h
  | cons a tl ih => exact ih (h.erase a)

theorem mem_foldl_erase_of_notMem {hs : List String} {pend : List String}
    {x : String} (hx : x ∈ pend) (hnot : x ∉ hs) :
    x ∈ hs.foldl List.erase pend := by
  induction hs generalizing pend with
  | nil => exact hx
  | cons h tl ih =>
      have hne : x ≠ h := fun e => hnot (e ▸ List.mem_cons_self _ _)
      exact ih ((List.mem_erase_of_ne hne).mpr hx)
        (fun hmem => hnot (List.mem_cons_of_mem _ hmem))

theorem notMem_foldl_erase {hs : List String} {pend : List String} {x : String}
    (hnd : pend.Nodup) (hx : x ∈ hs) : x ∉ hs.foldl List.erase pend := by
  induction hs generalizing pend with
  | nil => cases hx
  | cons h tl ih =>
      by_cases he : x = h
      · subst he
        intro hmem
        have := foldl_erase_subset tl (pend.erase x) x hmem
        exact absurd this (fun hm => ((hnd.mem_erase_iff).mp hm).1 rfl)
      · exact ih (hnd.erase h) ((List.mem_cons.mp hx).resolve_left he)

theorem markerAt_eq_carriesMarker {m : AppMatch} {pend : List String}
    (hm : dictGet? m "tags" = none) (hp : "tags" ∉ pend) :
    markerAt m pend = carriesMarker m pend := by
  rw [markerAt, dictSet_of_absent _ _ _ hm, carriesMarker_append]
  have h1 : carriesMarker [("tags", Value.vtags [])] pend = false := by
    simp only [carriesMarker, nonzeroKeys_cons, isNotZero]
    simpa [nonzeroKeys] using hp
  rw [h1, Bool.or_false]

theorem hitsAt_eq_prHits {m : AppMatch} {pend : List String}
    (hm : dictGet? m "tags" = none) (hp : "tags" ∉ pend) :
    hitsAt m pend = prHits m pend := by
  rw [hitsAt, dictSet_of_absent _ _ _ hm, prHits_append]
  have h1 : prHits [("tags", Value.vtags [])] pend = [] := by
    rw [prHits_cons]
    rw [contains_eq_false_of_not_mem hp]
    simp [prHits]
  rw [h1, List.append_nil]

theorem notMem_hitsAt_of_notMem {m : AppMatch} {pend : List String}
    {x : String} (h : x ∉ pend) : x ∉ hitsAt m pend :=
  fun hx => h (prHits_subset_pend hx)

/-- Once `found_latest` holds, no later record ever receives the `latest`
tag. -/
theorem tagLoop_latest_false (vd : Option String) :
    ∀ (ms : List AppMatch) (fd : Bool) (pend : List String),
      (∀ m ∈ ms, dictGet? m "tags" = none) → "latest" ∉ pend →
      ∀ x ∈ tagLoop vd ms true fd pend, hasTag x "latest" = false := by
  intro ms
  induction ms with
  | nil => intro fd pend _ _ x hx; cases hx
  | cons m rest ih =>
      intro fd pend hclean hlat x hx
      rw [tagLoop_cons] at hx
      by_cases hbrk : (true && fd && pend.isEmpty) = true
      · rw [if_pos hbrk] at hx
        exact hasTag_of_clean (hclean x hx) _
      · rw [if_neg hbrk] at hx
        rcases List.mem_cons.mp hx with rfl | hx
        · rw [hasTag_dictSet_tags]
          apply contains_eq_false_of_not_mem
          intro hmem
          have hl : ltagsOf vd true m pend = [] := by simp [ltagsOf]
          rw [hl, List.nil_append] at hmem
          rcases List.mem_append.mp hmem with hmem | hmem
          · simp only [dtagsOf] at hmem
            split at hmem
            · simp at hmem
            · cases hmem
          · exact notMem_hitsAt_of_notMem hlat hmem
        · have : (true || !markerAt m pend) = true := rfl
          rw [this] at hx
          exact ih _ _ (fun y hy => hclean y (List.mem_cons_of_mem _ hy))
            (fun hmem => hlat (stepPend_subset hmem)) x hx

/-- A tag name that is neither `latest` nor `default` nor pending is never
assigned. -/
theorem tagLoop_tag_false (vd : Option String) (name : String)
    (hl : name ≠ "latest") (hd : name ≠ "default") :
    ∀ (ms : List AppMatch) (fl fd : Bool) (pend : List String),
      (∀ m ∈ ms, dictGet? m "tags" = none) → name ∉ pend →
      ∀ x ∈ tagLoop vd ms fl fd pend, hasTag x name = false := by
  intro ms
  induction ms with
  | nil => intro fl fd pend _ _ x hx; cases hx
  | cons m rest ih =>
      intro fl fd pend hclean hname x hx
      rw [tagLoop_cons] at hx
      by_cases hbrk : (fl && fd && pend.isEmpty) = true
      · rw [if_pos hbrk] at hx
        exact hasTag_of_clean (hclean x hx) _
      · rw [if_neg hbrk] at hx
        rcases List.mem_cons.mp hx with rfl | hx
        · rw [hasTag_dictSet_tags]
          apply contains_eq_false_of_not_mem
          intro hmem
          rcases List.mem_append.mp hmem with hmem | hmem
          · rcases List.mem_append.mp hmem with hmem | hmem
            · simp only [ltagsOf] at hmem
              split at hmem
              · rcases List.mem_append.mp hmem with hmem | hmem
                · split at hmem
                  · exact hd (List.mem_singleton.mp hmem)
                  · cases hmem
                · exact hl (List.mem_singleton.mp hmem)
              · cases hmem
            · simp only [dtagsOf] at hmem
              split at hmem
              · exact hd (List.mem_singleton.mp hmem)
              · cases hmem
          · exact notMem_hitsAt_of_notMem hname hmem
        · exact ih _ _ _ (fun y hy => hclean y (List.mem_cons_of_mem _ hy))
            (fun hmem => hname (stepPend_subset hmem)) x hx

theorem mem_ltags {vd : Option String} {fl : Bool} {m : AppMatch}
    {pend : List String} {name : String} (h : name ∈ ltagsOf vd fl m pend) :
    name = "default" ∨ name = "latest" := by
  simp only [ltagsOf] at h
  split at h
  · rcases List.mem_append.mp h with h | h
    · split at h
      · exact Or.inl (List.mem_singleton.mp h)
      · cases h
    · exact Or.inr (List.mem_singleton.mp h)
  · cases h

theorem mem_dtags {vd : Option String} {m : AppMatch} {name : String}
    (h : name ∈ dtagsOf vd m) : name = "default" := by
  simp only [dtagsOf] at h
  split at h
  · exact List.mem_singleton.mp h
  · cases h

theorem hasTag_getD_false {l : List AppMatch} {name : String}
    (h : ∀ x ∈ l, hasTag x name = false) (i : Nat) :
    hasTag (l.getD i []) name = false := by
  by_cases hi : i < l.length
  · refine h _ ?_
    rw [List.getD_eq_getElem _ _ hi]
    exact List.getElem_mem hi
  · rw [List.getD_eq_default _ _ (Nat.le_of_not_lt hi)]
    exact hasTag_nil name

/-- Characterisation of the `latest` tag while `found_latest` is still unset:
record `i` is tagged `latest` exactly when it is the first record carrying no
pre-release marker (markers evaluated against the evolving pending list). -/
theorem tagLoop_latest_iff (vd : Option String) :
    ∀ (ms : List AppMatch) (fd : Bool) (pend : List String),
      (∀ m ∈ ms, dictGet? m "tags" = none) → "latest" ∉ pend →
      ∀ i, hasTag ((tagLoop vd ms false fd pend).getD i []) "latest" = true ↔
        (i < ms.length ∧ markerAt (ms.getD i []) (pendAt pend ms i) = false ∧
         ∀ j, j < i → markerAt (ms.getD j []) (pendAt pend ms j) = true) := by
  intro ms
  induction ms with
  | nil =>
      intro fd pend _ _ i
      simp [tagLoop, hasTag_nil]
  | cons m rest ih =>
      intro fd pend hclean hlat i
      have hcleanr : ∀ y ∈ rest, dictGet? y "tags" = none :=
        fun y hy => hclean y (List.mem_cons_of_mem _ hy)
      have hlatr : "latest" ∉ stepPend m pend :=
        fun hmem => hlat (stepPend_subset hmem)
      rw [tagLoop_cons, if_neg (by simp : ¬((false && fd && pend.isEmpty) = true))]
      cases hmk : markerAt m pend with
      | false =>
          cases i with
          | zero =>
              rw [List.getD_cons_zero, hasTag_dictSet_tags]
              constructor
              · intro _
                refine ⟨Nat.succ_pos _, ?_, ?_⟩
                · rw [List.getD_cons_zero]
                  exact hmk
                · intro j hj
                  exact absurd hj (Nat.not_lt_zero j)
              · intro _
                have hmem : "latest" ∈
                    ltagsOf vd false m pend ++ dtagsOf vd m ++ hitsAt m pend := by
                  refine List.mem_append.mpr (Or.inl (List.mem_append.mpr (Or.inl ?_)))
                  simp [ltagsOf, hmk]
                simpa using hmem
          | succ i =>
              rw [List.getD_cons_succ]
              have hL : hasTag
                  ((tagLoop vd rest (false || !false) (fd || vdEq vd m)
                    (stepPend m pend)).getD i []) "latest" = false :=
                hasTag_getD_false
                  (tagLoop_latest_false vd rest _ _ hcleanr hlatr) i
              apply iff_of_false
              · rw [hL]
                simp
              · rintro ⟨_, _, hall⟩
                have h0 := hall 0 (Nat.succ_pos i)
                rw [List.getD_cons_zero] at h0
                have : markerAt m pend = true := h0
                rw [hmk] at this
                cases this
      | true =>
          cases i with
          | zero =>
              rw [List.getD_cons_zero, hasTag_dictSet_tags]
              apply iff_of_false
              · intro hc
                have hmem : "latest" ∈
                    ltagsOf vd false m pend ++ dtagsOf vd m ++ hitsAt m pend := by
                  simpa using hc
                rcases List.mem_append.mp hmem with hmem | hmem
                · rcases List.mem_append.mp hmem with hmem | hmem
                  · rcases mem_ltags hmem with h | h <;> simp only [ltagsOf, hmk] at hmem
                    all_goals simp at hmem
                  · exact absurd (mem_dtags hmem) (by decide)
                · exact notMem_hitsAt_of_notMem hlat hmem
              · rintro ⟨_, hmid, _⟩
                rw [List.getD_cons_zero] at hmid
                have : markerAt m pend = false := hmid
                rw [hmk] at this
                cases this
          | succ i =>
              rw [List.getD_cons_succ]
              have := ih (fd || vdEq vd m) (stepPend m pend) hcleanr hlatr i
              simp only [Bool.or_false, Bool.not_true] at *
              rw [this]
              constructor
              · rintro ⟨hi, hmid, hall⟩
                refine ⟨Nat.succ_lt_succ hi, ?_, ?_⟩
                · rw [List.getD_cons_succ]
                  exact hmid
                · intro j hj
                  cases j with
                  | zero =>
                      rw [List.getD_cons_zero]
                      exact hmk
                  | succ j =>
                      rw [List.getD_cons_succ]
                      exact hall j (Nat.lt_of_succ_lt_succ hj)
              · rintro ⟨hi, hmid, hall⟩
                refine ⟨Nat.lt_of_succ_lt_succ hi, ?_, ?_⟩
                · rw [List.getD_cons_succ] at hmid
                  exact hmid
                · intro j hj
                  have := hall (j + 1) (Nat.succ_lt_succ hj)
                  rw [List.getD_cons_succ] at this
                  exact this

/-- Inside the loop with `found_latest` set, no record counts as `latest`. -/
theorem tagLoop_latest_count_zero (vd : Option String) (ms : List AppMatch)
    (fd : Bool) (pend : List String)
    (hclean : ∀ m ∈ ms, dictGet? m "tags" = none) (hlat : "latest" ∉ pend) :
    (tagLoop vd ms true fd pend).countP (fun m => hasTag m "latest") = 0 :=
  List.countP_eq_zero.mpr fun x hx => by
    rw [tagLoop_latest_false vd ms fd pend hclean hlat x hx]
    simp

/-- At most one record per run receives the `latest` tag. -/
theorem tagLoop_latest_count (vd : Option String) :
    ∀ (ms : List AppMatch) (fd : Bool) (pend : List String),
      (∀ m ∈ ms, dictGet? m "tags" = none) → "latest" ∉ pend →
      (tagLoop vd ms false fd pend).countP (fun m => hasTag m "latest") ≤ 1 := by
  intro ms
  induction ms with
  | nil => intro fd pend _ _; simp [tagLoop]
  | cons m rest ih =>
      intro fd pend hclean hlat
      have hcleanr : ∀ y ∈ rest, dictGet? y "tags" = none :=
        fun y hy => hclean y (List.mem_cons_of_mem _ hy)
      have hlatr : "latest" ∉ stepPend m pend :=
        fun hmem => hlat (stepPend_subset hmem)
      rw [tagLoop_cons, if_neg (by simp : ¬((false && fd && pend.isEmpty) = true))]
      rw [List.countP_cons]
      cases hmk : markerAt m pend with
      | false =>
          simp only [Bool.not_false, Bool.or_true]
          rw [tagLoop_latest_count_zero vd rest _ _ hcleanr hlatr]
          split <;> simp
      | true =>
          simp only [Bool.not_true, Bool.or_false]
          have hhd : hasTag
              (dictSet m "tags"
                (.vtags (ltagsOf vd false m pend ++ dtagsOf vd m ++ hitsAt m pend)))
              "latest" = false := by
            rw [hasTag_dictSet_tags]
            apply contains_eq_false_of_not_mem
            intro hmem
            rcases List.mem_append.mp hmem with hmem | hmem
            · rcases List.mem_append.mp hmem with hmem | hmem
              · simp only [ltagsOf, hmk] at hmem
                simp at hmem
              · exact absurd (mem_dtags hmem) (by decide)
            · exact notMem_hitsAt_of_notMem hlat hmem
          rw [hhd]
          simpa using ih (fd || vdEq vd m) (stepPend m pend) hcleanr hlatr

/-- Without a truthy explicit default version, whichever record gets `latest`
also gets `default` (lines 308-310). -/
theorem tagLoop_latest_imp_default (vd : Option String)
    (hvt : vdTruthy vd = false) :
    ∀ (ms : List AppMatch) (fl fd : Bool) (pend : List String),
      (∀ m ∈ ms, dictGet? m "tags" = none) → "latest" ∉ pend →
      ∀ i, hasTag ((tagLoop vd ms fl fd pend).getD i []) "latest" = true →
        hasTag ((tagLoop vd ms fl fd pend).getD i []) "default" = true := by
  intro ms
  induction ms with
  | nil =>
      intro fl fd pend _ _ i h
      rw [tagLoop] at h
      rw [List.getD_nil] at h
      rw [hasTag_nil] at h
      cases h
  | cons m rest ih =>
      intro fl fd pend hclean hlat i h
      have hcleanr : ∀ y ∈ rest, dictGet? y "tags" = none :=
        fun y hy => hclean y (List.mem_cons_of_mem _ hy)
      have hlatr : "latest" ∉ stepPend m pend :=
        fun hmem => hlat (stepPend_subset hmem)
      rw [tagLoop_cons] at h ⊢
      by_cases hbrk : (fl && fd && pend.isEmpty) = true
      · rw [if_pos hbrk] at h
        have := hasTag_getD_false
          (fun x hx => hasTag_of_clean (hclean x hx) "latest") i
        rw [this] at h
        cases h
      · rw [if_neg hbrk] at h ⊢
        cases i with
        | zero =>
            rw [List.getD_cons_zero, hasTag_dictSet_tags] at h ⊢
            have hmem : "latest" ∈
                ltagsOf vd fl m pend ++ dtagsOf vd m ++ hitsAt m pend := by
              simpa using h
            have hml : "latest" ∈ ltagsOf vd fl m pend := by
              rcases List.mem_append.mp hmem with hmem | hmem
              · rcases List.mem_append.mp hmem with hmem | hmem
                · exact hmem
                · exact absurd (mem_dtags hmem) (by decide)
              · exact absurd hmem (notMem_hitsAt_of_notMem hlat)
            have hcond : (!fl && !markerAt m pend) = true := by
              simp only [ltagsOf] at hml
              by_cases hc : (!fl && !markerAt m pend) = true
              · exact hc
              · rw [if_neg hc] at hml
                cases hml
            have hdef : "default" ∈ ltagsOf vd fl m pend := by
              simp only [ltagsOf, hcond, if_pos, hvt]
              simp
            have : "default" ∈
                ltagsOf vd fl m pend ++ dtagsOf vd m ++ hitsAt m pend :=
              List.mem_append.mpr
                (Or.inl (List.mem_append.mpr (Or.inl hdef)))
            simpa using this
        | succ i =>
            rw [List.getD_cons_succ] at h ⊢
            exact ih _ _ _ hcleanr hlatr i h

/-- Characterisation of a pre-release token's tag: with a duplicate-free
pending list (and reserved names absent from it), token `name` tags exactly
the first record whose `name` entry is non-zero. -/
theorem tagLoop_prname_iff (vd : Option String) (name : String) :
    ∀ (ms : List AppMatch) (fl fd : Bool) (pend : List String),
      (∀ m ∈ ms, dictGet? m "tags" = none) →
      (∀ m ∈ ms, (m.map Prod.fst).Nodup) →
      pend.Nodup → "latest" ∉ pend → "default" ∉ pend → "tags" ∉ pend →
      name ∈ pend →
      ∀ i, hasTag ((tagLoop vd ms fl fd pend).getD i []) name = true ↔
        (i < ms.length ∧ nonzeroEntry (ms.getD i []) name = true ∧
         ∀ j, j < i → nonzeroEntry (ms.getD j []) name = false) := by
  intro ms
  induction ms with
  | nil =>
      intro fl fd pend _ _ _ _ _ _ _ i
      simp [tagLoop, hasTag_nil]
  | cons m rest ih =>
      intro fl fd pend hclean hkeys hnd hlat hdef htags hname i
      have hnl : name ≠ "latest" := fun e => hlat (e ▸ hname)
      have hndf : name ≠ "default" := fun e => hdef (e ▸ hname)
      have hcleanr : ∀ y ∈ rest, dictGet? y "tags" = none :=
        fun y hy => hclean y (List.mem_cons_of_mem _ hy)
      have hkeysr : ∀ y ∈ rest, (y.map Prod.fst).Nodup :=
        fun y hy => hkeys y (List.mem_cons_of_mem _ hy)
      have hpne : pend.isEmpty = false := by
        cases pend with
        | nil => cases hname
        | cons a l => rfl
      have hbrk : (fl && fd && pend.isEmpty) = false := by
        rw [hpne]
        simp
      rw [tagLoop_cons, if_neg (by rw [hbrk]; simp)]
      have hhits : hitsAt m pend = prHits m pend :=
        hitsAt_eq_prHits (hclean m (List.mem_cons_self _ _)) htags
      have hinhits : name ∈ hitsAt m pend ↔ nonzeroEntry m name = true := by
        rw [hhits, mem_prHits_iff (hkeys m (List.mem_cons_self _ _))]
        constructor
        · exact fun h => h.1
        · exact fun h => ⟨h, by simpa using hname⟩
      cases i with
      | zero =>
          rw [List.getD_cons_zero, hasTag_dictSet_tags]
          constructor
          · intro hc
            have hmem : name ∈
                ltagsOf vd fl m pend ++ dtagsOf vd m ++ hitsAt m pend := by
              simpa using hc
            have hz : name ∈ hitsAt m pend := by
              rcases List.mem_append.mp hmem with hmem | hmem
              · rcases List.mem_append.mp hmem with hmem | hmem
                · rcases mem_ltags hmem with h | h
                  · exact absurd h hndf
                  · exact absurd h hnl
                · exact absurd (mem_dtags hmem) hndf
              · exact hmem
            refine ⟨Nat.succ_pos _, ?_, ?_⟩
            · rw [List.getD_cons_zero]
              exact hinhits.mp hz
            · intro j hj
              exact absurd hj (Nat.not_lt_zero j)
          · rintro ⟨_, hz, _⟩
            rw [List.getD_cons_zero] at hz
            have : name ∈
                ltagsOf vd fl m pend ++ dtagsOf vd m ++ hitsAt m pend :=
              List.mem_append.mpr (Or.inr (hinhits.mpr hz))
            simpa using this
      | succ i =>
          rw [List.getD_cons_succ]
          cases hz : nonzeroEntry m name with
          | true =>
              have hmemhits : name ∈ hitsAt m pend := hinhits.mpr hz
              have hnot : name ∉ stepPend m pend :=
                notMem_foldl_erase hnd hmemhits
              have hfalse := hasTag_getD_false
                (tagLoop_tag_false vd name hnl hndf rest (fl || !markerAt m pend)
                  (fd || vdEq vd m) (stepPend m pend) hcleanr hnot) i
              apply iff_of_false
              · rw [hfalse]
                simp
              · rintro ⟨_, _, hall⟩
                have h0 := hall 0 (Nat.succ_pos i)
                rw [List.getD_cons_zero] at h0
                rw [hz] at h0
                cases h0
          | false =>
              have hmem : name ∈ stepPend m pend :=
                mem_foldl_erase_of_notMem hname
                  (fun hmemh => by rw [hinhits.mp hmemh] at hz; cases hz)
              have hstep := ih (fl || !markerAt m pend) (fd || vdEq vd m)
                (stepPend m pend) hcleanr
                hkeysr (stepPend_nodup m hnd)
                (fun h => hlat (stepPend_subset h))
                (fun h => hdef (stepPend_subset h))
                (fun h => htags (stepPend_subset h)) hmem i
              rw [hstep]
              constructor
              · rintro ⟨hi, hmid, hall⟩
                refine ⟨Nat.succ_lt_succ hi, ?_, ?_⟩
                · rw [List.getD_cons_succ]
                  exact hmid
                · intro j hj
                  cases j with
                  | zero =>
                      rw [List.getD_cons_zero]
                      exact hz
                  | succ j =>
                      rw [List.getD_cons_succ]
                      exact hall j (Nat.lt_of_succ_lt_succ hj)
              · rintro ⟨hi, hmid, hall⟩
                refine ⟨Nat.lt_of_succ_lt_succ hi, ?_, ?_⟩
                · rw [List.getD_cons_succ] at hmid
                  exact hmid
                · intro j hj
                  have := hall (j + 1) (Nat.succ_lt_succ hj)
                  rw [List.getD_cons_succ] at this
                  exact this

/-- At most one record per run receives a given pre-release token tag, for a
duplicate-free pending list avoiding the reserved names. -/
theorem tagLoop_prname_count (vd : Option String) (name : String) :
    ∀ (ms : List AppMatch) (fl fd : Bool) (pend : List String),
      (∀ m ∈ ms, dictGet? m "tags" = none) →
      (∀ m ∈ ms, (m.map Prod.fst).Nodup) →
      pend.Nodup → "latest" ∉ pend → "default" ∉ pend → "tags" ∉ pend →
      name ∈ pend →
      (tagLoop vd ms fl fd pend).countP (fun m => hasTag m name) ≤ 1 := by
  intro ms
  induction ms with
  | nil => intro fl fd pend _ _ _ _ _ _ _; simp [tagLoop]
  | cons m rest ih =>
      intro fl fd pend hclean hkeys hnd hlat hdef htags hname
      have hnl : name ≠ "latest" := fun e => hlat (e ▸ hname)
      have hndf : name ≠ "default" := fun e => hdef (e ▸ hname)
      have hcleanr : ∀ y ∈ rest, dictGet? y "tags" = none :=
        fun y hy => hclean y (List.mem_cons_of_mem _ hy)
      have hkeysr : ∀ y ∈ rest, (y.map Prod.fst).Nodup :=
        fun y hy => hkeys y (List.mem_cons_of_mem _ hy)
      have hpne : pend.isEmpty = false := by
        cases pend with
        | nil => cases hname
        | cons a l => rfl
      rw [tagLoop_cons, if_neg (by rw [hpne]; simp)]
      rw [List.countP_cons]
      have hhits : hitsAt m pend = prHits m pend :=
        hitsAt_eq_prHits (hclean m (List.mem_cons_self _ _)) htags
      have hinhits : name ∈ hitsAt m pend ↔ nonzeroEntry m name = true := by
        rw [hhits, mem_prHits_iff (hkeys m (List.mem_cons_self _ _))]
        constructor
        · exact fun h => h.1
        · exact fun h => ⟨h, by simpa using hname⟩
      cases hz : nonzeroEntry m name with
      | true =>
          have hnot : name ∉ stepPend m pend :=
            notMem_foldl_erase hnd (hinhits.mpr hz)
          have hzero : (tagLoop vd rest (fl || !markerAt m pend)
              (fd || vdEq vd m) (stepPend m pend)).countP
                (fun x => hasTag x name) = 0 :=
            List.countP_eq_zero.mpr fun x hx => by
              rw [tagLoop_tag_false vd name hnl hndf rest _ _ _ hcleanr hnot x hx]
              simp
          rw [hzero]
          split <;> simp
      | false =>
          have hmem : name ∈ stepPend m pend :=
            mem_foldl_erase_of_notMem hname
              (fun hmemh => by rw [hinhits.mp hmemh] at hz; cases hz)
          have hhd : hasTag
              (dictSet m "tags"
                (.vtags (ltagsOf vd fl m pend ++ dtagsOf vd m ++ hitsAt m pend)))
              name = false := by
            rw [hasTag_dictSet_tags]
            apply contains_eq_false_of_not_mem
            intro hmemt
            rcases List.mem_append.mp hmemt with hmemt | hmemt
            · rcases List.mem_append.mp hmemt with hmemt | hmemt
              · rcases mem_ltags hmemt with h | h
                · exact hndf h
                · exact hnl h
              · exact hndf (mem_dtags hmemt)
            · rw [hinhits.mp hmemt] at hz
              cases hz
          rw [hhd]
          simpa using ih (fl || !markerAt m pend) (fd || vdEq vd m)
            (stepPend m pend) hcleanr hkeysr
            (stepPend_nodup m hnd) (fun h => hlat (stepPend_subset h))
            (fun h => hdef (stepPend_subset h))
            (fun h => htags (stepPend_subset h)) hmem

/-- Characterisation of the `default` tag under a truthy explicit default
version: every record scanned before the early stop whose stored version
equals it is tagged, later records are not. -/
theorem tagLoop_default_iff (vd : Option String) (d : String)
    (hvd : vd = some d) (hne : d ≠ "") :
    ∀ (ms : List AppMatch) (fl fd : Bool) (pend : List String),
      (∀ m ∈ ms, dictGet? m "tags" = none) → "default" ∉ pend →
      ∀ i, hasTag ((tagLoop vd ms fl fd pend).getD i []) "default" = true ↔
        (i < stopIdx vd ms fl fd pend ∧
         valEqStr d (dictGet? (ms.getD i []) "version") = true) := by
  have hvt : vdTruthy vd = true := by
    rw [hvd]
    simpa [vdTruthy] using hne
  intro ms
  induction ms with
  | nil =>
      intro fl fd pend _ _ i
      simp [tagLoop, stopIdx, hasTag_nil]
  | cons m rest ih =>
      intro fl fd pend hclean hdef i
      have hcleanr : ∀ y ∈ rest, dictGet? y "tags" = none :=
        fun y hy => hclean y (List.mem_cons_of_mem _ hy)
      have hdefr : "default" ∉ stepPend m pend :=
        fun hmem => hdef (stepPend_subset hmem)
      rw [tagLoop_cons]
      by_cases hbrk : (fl && fd && pend.isEmpty) = true
      · rw [if_pos hbrk]
        rw [show stopIdx vd (m :: rest) fl fd pend = 0 by
          rw [stopIdx, if_pos hbrk]]
        apply iff_of_false
        · rw [hasTag_getD_false
            (fun x hx => hasTag_of_clean (hclean x hx) "default") i]
          simp
        · rintro ⟨hi, _⟩
          exact absurd hi (Nat.not_lt_zero i)
      · rw [if_neg hbrk]
        rw [show stopIdx vd (m :: rest) fl fd pend =
            1 + stopIdx vd rest (fl || !markerAt m pend) (fd || vdEq vd m)
              (stepPend m pend) by
          rw [stopIdx, if_neg hbrk]]
        cases i with
        | zero =>
            rw [List.getD_cons_zero, hasTag_dictSet_tags, List.getD_cons_zero]
            constructor
            · intro hc
              refine ⟨by omega, ?_⟩
              have hmem : "default" ∈
                  ltagsOf vd fl m pend ++ dtagsOf vd m ++ hitsAt m pend := by
                simpa using hc
              have hd : "default" ∈ dtagsOf vd m := by
                rcases List.mem_append.mp hmem with hmem | hmem
                · rcases List.mem_append.mp hmem with hmem | hmem
                  · exfalso
                    simp only [ltagsOf, hvt] at hmem
                    split at hmem
                    · simp at hmem
                    · cases hmem
                  · exact hmem
                · exact absurd hmem (notMem_hitsAt_of_notMem hdef)
              cases hb : vdEq vd m with
              | false => simp [dtagsOf, hb] at hd
              | true =>
                  rw [vdEq, hvd] at hb
                  exact ((Bool.and_eq_true _ _).mp hb).2
            · rintro ⟨_, heq⟩
              have hvt2 : vdTruthy (some d) = true := hvd ▸ hvt
              have hd : "default" ∈ dtagsOf vd m := by
                have hb : vdEq vd m = true := by
                  rw [vdEq, hvd, hvt2]
                  simpa using heq
                simp [dtagsOf, hb]
              have : "default" ∈
                  ltagsOf vd fl m pend ++ dtagsOf vd m ++ hitsAt m pend :=
                List.mem_append.mpr
                  (Or.inl (List.mem_append.mpr (Or.inr hd)))
              simpa using this
        | succ i =>
            rw [List.getD_cons_succ, List.getD_cons_succ]
            rw [ih (fl || !markerAt m pend) (fd || vdEq vd m) (stepPend m pend)
              hcleanr hdefr i]
            constructor
            · rintro ⟨hi, hv⟩
              exact ⟨by omega, hv⟩
            · rintro ⟨hi, hv⟩
              exact ⟨by omega, hv⟩

/-- With no (truthy) explicit default version the early break never fires:
the loop and its break-free variant coincide. -/
theorem tagLoop_eq_noBreak (vd : Option String) (hvt : vdTruthy vd = false) :
    ∀ (ms : List AppMatch) (fl : Bool) (pend : List String),
      tagLoop vd ms fl false pend = tagLoopNoBreak vd ms fl false pend := by
  intro ms
  induction ms with
  | nil => intro fl pend; rfl
  | cons m rest ih =>
      intro fl pend
      rw [tagLoop_cons, tagLoopNoBreak]
      rw [if_neg (by simp : ¬((fl && false && pend.isEmpty) = true))]
      simp only [tagStep_eq]
      have hvq : vdEq vd m = false := by
        simp [vdEq, hvt]
      rw [hvq]
      simp only [Bool.or_false]
      rw [ih]

/-! ## Matcher lemmas: character level -/

theorem isDigit_toNat {c : Char} (h : c.isDigit = true) :
    48 ≤ c.toNat ∧ c.toNat ≤ 57 := by
  simp only [Char.isDigit, Bool.and_eq_true, decide_eq_true_eq] at h
  obtain ⟨h1, h2⟩ := h
  rw [ge_iff_le, UInt32.le_def, BitVec.le_def] at h1
  rw [UInt32.le_def, BitVec.le_def] at h2
  exact ⟨h1, h2⟩

theorem char_toNat_inj {a b : Char} (h : a.toNat = b.toNat) : a = b := by
  have := congrArg Char.ofNat h
  simpa using this

theorem digit_ne_dot {p : Char} (hp : p.isDigit = true) : p ≠ '.' := by
  intro e
  have hb := isDigit_toNat hp
  rw [e] at hb
  rw [show ('.' : Char).toNat = 46 by decide] at hb
  omega

theorem foldCase_digit {c : Char} (hc : c.isDigit = true) :
    foldCase c = c.toNat := by
  have hb := isDigit_toNat hc
  rw [foldCase, if_neg (by omega)]

theorem litCharMatch_digit_eq {p c : Char} (hp : p.isDigit = true)
    (hm : litCharMatch p c = true) : c = p := by
  rw [litCharMatch, if_neg (digit_ne_dot hp)] at hm
  have hm' : foldCase p = foldCase c := by simpa using hm
  rw [foldCase_digit hp] at hm'
  have hb := isDigit_toNat hp
  by_cases hcu : 65 ≤ c.toNat ∧ c.toNat ≤ 90
  · rw [foldCase, if_pos hcu] at hm'
    omega
  · rw [foldCase, if_neg hcu] at hm'
    exact char_toNat_inj hm'.symm

theorem litCharMatch_self_digit {c : Char} (hc : c.isDigit = true) :
    litCharMatch c c = true := by
  rw [litCharMatch, if_neg (digit_ne_dot hc)]
  simp

/-! ## Matcher lemmas: literal segments -/

theorem eatLit_sound :
    ∀ (l cs cs' : List Char), eatLit l cs = some cs' →
      ∃ cs₁, cs = cs₁ ++ cs' ∧ LitsMatch l cs₁ := by
  intro l
  induction l with
  | nil =>
      intro cs cs' h
      rw [eatLit] at h
      cases h
      exact ⟨[], rfl, LitsMatch.nil⟩
  | cons p ps ih =>
      intro cs cs' h
      cases cs with
      | nil => cases h
      | cons c cs0 =>
          rw [eatLit] at h
          by_cases hm : litCharMatch p c = true
          · rw [if_pos hm] at h
            obtain ⟨cs₁, he, hl⟩ := ih cs0 cs' h
            exact ⟨c :: cs₁, by rw [he]; rfl, LitsMatch.cons hm hl⟩
          · rw [if_neg hm] at h
            cases h

theorem eatLit_of_litsMatch {l cs₁ : List Char} (h : LitsMatch l cs₁) :
    ∀ rest, eatLit l (cs₁ ++ rest) = some rest := by
  induction h with
  | nil => intro rest; rfl
  | cons hm _ ih =>
      intro rest
      rw [List.cons_append, eatLit, if_pos hm]
      exact ih rest

theorem litsMatch_self_digits {v : List Char}
    (h : ∀ c ∈ v, c.isDigit = true) : LitsMatch v v := by
  induction v with
  | nil => exact LitsMatch.nil
  | cons c cs ih =>
      exact LitsMatch.cons
        (litCharMatch_self_digit (h c (List.mem_cons_self _ _)))
        (ih fun x hx => h x (List.mem_cons_of_mem _ hx))

theorem litsMatch_digits_eq {v cs : List Char}
    (hd : ∀ c ∈ v, c.isDigit = true) (h : LitsMatch v cs) : cs = v := by
  induction h with
  | nil => rfl
  | cons hm hrest ih =>
      rename_i p c l cs0
      rw [ih fun x hx => hd x (List.mem_cons_of_mem _ hx)]
      rw [litCharMatch_digit_eq (hd p (List.mem_cons_self _ _)) hm]

/-! ## Matcher lemmas: backtracking search -/

theorem firstSome_eq_some :
    ∀ (m : Nat) (f : Nat → Option Env) (e : Env), firstSome f m = some e →
      ∃ n, 1 ≤ n ∧ n ≤ m ∧ f n = some e := by
  intro m
  induction m with
  | zero => intro f e h; cases h
  | succ m ih =>
      intro f e h
      rw [firstSome] at h
      cases hf : f (m + 1) with
      | some e' =>
          rw [hf] at h
          cases h
          exact ⟨m + 1, by omega, le_refl _, hf⟩
      | none =>
          rw [hf] at h
          obtain ⟨n, h1, h2, h3⟩ := ih f e h
          exact ⟨n, h1, by omega, h3⟩

theorem firstSome_isSome :
    ∀ (m : Nat) (f : Nat → Option Env) (n : Nat), 1 ≤ n → n ≤ m →
      (f n).isSome = true → (firstSome f m).isSome = true := by
  intro m
  induction m with
  | zero => intro f n h1 h2 _; omega
  | succ m ih =>
      intro f n h1 h2 h3
      rw [firstSome]
      cases hf : f (m + 1) with
      | some e => simp
      | none =>
          have hne : n ≠ m + 1 := by
            intro e
            rw [e, hf] at h3
            cases h3
          exact ih f n h1 (by omega) h3

/-! ## Matcher lemmas: digit prefixes -/

theorem digit_prefix_le (u w : List Char)
    (h : ∀ c ∈ u, c.isDigit = true) :
    u.length ≤ ((u ++ w).takeWhile Char.isDigit).length := by
  induction u with
  | nil => simp
  | cons c u0 ih =>
      rw [List.cons_append, List.takeWhile_cons,
        if_pos (h c (List.mem_cons_self _ _))]
      simpa using ih fun x hx => h x (List.mem_cons_of_mem _ hx)

theorem takeWhile_length_le (p : Char → Bool) :
    ∀ cs : List Char, (cs.takeWhile p).length ≤ cs.length := by
  intro cs
  induction cs with
  | nil => simp
  | cons c cs0 ih =>
      rw [List.takeWhile_cons]
      by_cases h : p c = true
      · rw [if_pos h]
        simpa using ih
      · rw [if_neg h]
        simp

theorem take_digits :
    ∀ (cs : List Char) (n : Nat),
      n ≤ (cs.takeWhile Char.isDigit).length →
      ∀ c ∈ cs.take n, c.isDigit = true := by
  intro cs
  induction cs with
  | nil => intro n _ c hc; simp at hc
  | cons a cs0 ih =>
      intro n hn c hc
      cases n with
      | zero => simp at hc
      | succ n =>
          rw [List.takeWhile_cons] at hn
          by_cases hd : Char.isDigit a = true
          · rw [if_pos hd] at hn
            rw [List.take_succ_cons] at hc
            rcases List.mem_cons.mp hc with rfl | hc
            · exact hd
            · exact ih n (by simpa using hn) c hc
          · rw [if_neg hd] at hn
            simp at hn

/-! ## Matcher lemmas: environments and well-formed patterns -/

theorem reMatch_nil_eq (cs : List Char) (e : Env) :
    reMatch [] cs e = if cs.isEmpty then some e else none := rfl

theorem reMatch_lit_eq (l : List Char) (rest : List RItem) (cs : List Char)
    (e : Env) :
    reMatch (.lit l :: rest) cs e =
      (eatLit l cs).bind fun cs' => reMatch rest cs' e := rfl

theorem reMatch_bref_eq (t : String) (rest : List RItem) (cs : List Char)
    (e : Env) :
    reMatch (.bref t :: rest) cs e =
      (lookupEnv e t).bind fun v =>
        (eatLit v cs).bind fun cs' => reMatch rest cs' e := rfl

theorem reMatch_cap_eq (t : String) (rest : List RItem) (cs : List Char)
    (e : Env) :
    reMatch (.cap t :: rest) cs e =
      firstSome (fun n => reMatch rest (cs.drop n) ((t, cs.take n) :: e))
        (cs.takeWhile Char.isDigit).length := rfl

theorem wf_capNames_disjoint :
    ∀ (items : List RItem) (b : List String), wfItems items b →
      ∀ t ∈ b, t ∉ capNames items := by
  intro items
  induction items with
  | nil => intro b _ t _ h; cases h
  | cons it rest ih =>
      intro b hwf t ht
      cases it with
      | lit l => exact ih b hwf t ht
      | cap u =>
          obtain ⟨hub, hrest⟩ := hwf
          intro hmem
          rw [capNames] at hmem
          rcases List.mem_cons.mp hmem with rfl | hmem
          · exact hub ht
          · exact ih (u :: b) hrest t (List.mem_cons_of_mem _ ht) hmem
      | bref u =>
          obtain ⟨_, hrest⟩ := hwf
          exact ih b hrest t ht

theorem reMatch_lookup_stable :
    ∀ (items : List RItem) (cs : List Char) (env env' : Env) (t : String),
      reMatch items cs env = some env' → t ∉ capNames items →
      lookupEnv env' t = lookupEnv env t := by
  intro items
  induction items with
  | nil =>
      intro cs env env' t hm _
      rw [reMatch_nil_eq] at hm
      by_cases hc : cs.isEmpty = true
      · rw [if_pos hc] at hm
        cases hm
        rfl
      · rw [if_neg hc] at hm
        cases hm
  | cons it rest ih =>
      intro cs env env' t hm hcap
      cases it with
      | lit l =>
          rw [reMatch_lit_eq] at hm
          cases he : eatLit l cs with
          | some cs' =>
              rw [he, Option.some_bind] at hm
              exact ih cs' env env' t hm hcap
          | none => rw [he, Option.none_bind] at hm; cases hm
      | bref u =>
          rw [reMatch_bref_eq] at hm
          cases hl : lookupEnv env u with
          | some v =>
              rw [hl, Option.some_bind] at hm
              cases he : eatLit v cs with
              | some cs' =>
                  rw [he, Option.some_bind] at hm
                  exact ih cs' env env' t hm hcap
              | none => rw [he, Option.none_bind] at hm; cases hm
          | none => rw [hl, Option.none_bind] at hm; cases hm
      | cap u =>
          rw [reMatch_cap_eq] at hm
          obtain ⟨n, _, _, hf⟩ := firstSome_eq_some _ _ _ hm
          have hne : t ≠ u := by
            intro e
            exact hcap (by rw [capNames, e]; exact List.mem_cons_self _ _)
          have hrest : t ∉ capNames rest :=
            fun hmem => hcap (by rw [capNames]; exact List.mem_cons_of_mem _ hmem)
          rw [ih _ _ _ t hf hrest]
          rw [lookupEnv, if_neg (fun e => hne e.symm)]

/-- Soundness of the matcher: a successful anchored match exhibits a
decomposition of the subject along the pattern, every occurrence of a token
consuming the very digit string the final environment records for it. -/
theorem reMatch_sound :
    ∀ (items : List RItem) (cs : List Char) (env env' : Env),
      wfItems items (env.map Prod.fst) →
      (∀ kv ∈ env, kv.2 ≠ [] ∧ ∀ c ∈ kv.2, c.isDigit = true) →
      reMatch items cs env = some env' →
      Fills (fun t => (lookupEnv env' t).getD []) items cs := by
  intro items
  induction items with
  | nil =>
      intro cs env env' _ _ hm
      rw [reMatch_nil_eq] at hm
      by_cases hc : cs.isEmpty = true
      · rw [if_pos hc] at hm
        cases hm
        rw [List.isEmpty_iff] at hc
        rw [hc]
        exact Fills.nil
      · rw [if_neg hc] at hm
        cases hm
  | cons it rest ih =>
      intro cs env env' hwf henv hm
      cases it with
      | lit l =>
          rw [reMatch_lit_eq] at hm
          cases he : eatLit l cs with
          | some cs₂ =>
              rw [he, Option.some_bind] at hm
              obtain ⟨cs₁, hsplit, hlits⟩ := eatLit_sound l cs cs₂ he
              rw [hsplit]
              exact Fills.lit hlits (ih cs₂ env env' hwf henv hm)
          | none => rw [he, Option.none_bind] at hm; cases hm
      | bref u =>
          obtain ⟨hub, hwfr⟩ := hwf
          rw [reMatch_bref_eq] at hm
          cases hl : lookupEnv env u with
          | some v =>
              rw [hl, Option.some_bind] at hm
              cases he : eatLit v cs with
              | some cs₂ =>
                  rw [he, Option.some_bind] at hm
                  obtain ⟨hvne, hvdig⟩ := henv _ (lookupEnv_eq_some_mem hl)
                  obtain ⟨cs₁, hsplit, hlits⟩ := eatLit_sound v cs cs₂ he
                  have hcs₁ : cs₁ = v := litsMatch_digits_eq hvdig hlits
                  have hstable : lookupEnv env' u = some v := by
                    rw [reMatch_lookup_stable rest cs₂ env env' u hm
                      (wf_capNames_disjoint rest _ hwfr u hub)]
                    exact hl
                  have hσ : (lookupEnv env' u).getD [] = v := by
                    rw [hstable]
                    rfl
                  rw [hsplit, hcs₁, ← hσ]
                  exact Fills.bref (by rw [hσ]; exact hvne)
                    (by rw [hσ]; exact hvdig)
                    (ih cs₂ env env' hwfr henv hm)
              | none => rw [he, Option.none_bind] at hm; cases hm
          | none => rw [hl, Option.none_bind] at hm; cases hm
      | cap u =>
          obtain ⟨hub, hwfr⟩ := hwf
          rw [reMatch_cap_eq] at hm
          obtain ⟨n, h1, hnm, hf⟩ := firstSome_eq_some _ _ _ hm
          have htdig : ∀ c ∈ cs.take n, c.isDigit = true := take_digits cs n hnm
          have hlen : n ≤ cs.length :=
            le_trans hnm (takeWhile_length_le Char.isDigit cs)
          have htne : cs.take n ≠ [] := by
            intro he
            have h0 : (cs.take n).length = 0 := by rw [he]; rfl
            rw [List.length_take] at h0
            omega
          have henv2 : ∀ kv ∈ ((u, cs.take n) :: env),
              kv.2 ≠ [] ∧ ∀ c ∈ kv.2, c.isDigit = true := by
            intro kv hkv
            rcases List.mem_cons.mp hkv with rfl | hkv
            · exact ⟨htne, htdig⟩
            · exact henv kv hkv
          have hwf2 : wfItems rest (((u, cs.take n) :: env).map Prod.fst) := hwfr
          have hfill := ih _ _ _ hwf2 henv2 hf
          have hstable : lookupEnv env' u = some (cs.take n) := by
            rw [reMatch_lookup_stable rest _ _ env' u hf
              (wf_capNames_disjoint rest _ hwfr u (List.mem_cons_self _ _))]
            rw [lookupEnv, if_pos rfl]
          have hσ : (lookupEnv env' u).getD [] = cs.take n := by
            rw [hstable]
            rfl
          have hgoal : Fills (fun t => (lookupEnv env' t).getD [])
              (RItem.cap u :: rest) ((lookupEnv env' u).getD [] ++ cs.drop n) :=
            Fills.cap (by rw [hσ]; exact htne) (by rw [hσ]; exact htdig) hfill
          rw [hσ] at hgoal
          rw [← List.take_append_drop n cs]
          exact hgoal

/-- Completeness of the matcher: any decomposition of the subject along the
pattern with one digit string per token is found by the backtracking search. -/
theorem reMatch_complete {σ : String → List Char} :
    ∀ {items : List RItem} {cs : List Char}, Fills σ items cs →
      ∀ env : Env, wfItems items (env.map Prod.fst) →
      (∀ t v, lookupEnv env t = some v → σ t = v) →
      (reMatch items cs env).isSome = true := by
  intro items cs hfills
  induction hfills with
  | nil =>
      intro env _ _
      rw [reMatch_nil_eq]
      simp
  | lit hlits hf ih =>
      rename_i l cs₁ rest tail
      intro env hwf hagree
      rw [reMatch_lit_eq, eatLit_of_litsMatch hlits tail, Option.some_bind]
      exact ih env hwf hagree
  | cap hne hdig hf ih =>
      rename_i t rest tail
      intro env hwf hagree
      obtain ⟨htb, hwfr⟩ := hwf
      rw [reMatch_cap_eq]
      have hnlen : 1 ≤ (σ t).length := List.length_pos.mpr hne
      have hm : (σ t).length ≤
          ((σ t ++ tail).takeWhile Char.isDigit).length :=
        digit_prefix_le (σ t) tail hdig
      apply firstSome_isSome _ _ (σ t).length hnlen hm
      rw [List.take_left, List.drop_left]
      apply ih
      · exact hwfr
      · intro u v hl
        rw [lookupEnv] at hl
        by_cases he : t = u
        · rw [if_pos he] at hl
          cases hl
          rw [← he]
        · rw [if_neg he] at hl
          exact hagree u v hl
  | bref hne hdig hf ih =>
      rename_i t rest tail
      intro env hwf hagree
      obtain ⟨htb, hwfr⟩ := hwf
      obtain ⟨v, hv⟩ := lookupEnv_isSome_of_mem htb
      have hσ : σ t = v := hagree t v hv
      rw [reMatch_bref_eq, hv, Option.some_bind, hσ,
        eatLit_of_litsMatch (litsMatch_self_digits
          (by rw [← hσ]; exact hdig)) tail, Option.some_bind]
      exact ih env hwfr hagree

/-- The compiled pattern is well formed: capture groups are pairwise distinct
and precede all their back-references. -/
theorem wf_compilePieces (tokens : List String) :
    ∀ (ps : List Piece) (seen : List String),
      wfItems (compilePieces tokens ps seen) seen := by
  intro ps
  induction ps with
  | nil => intro seen; trivial
  | cons p rest ih =>
      intro seen
      cases p with
      | ch c => exact ih seen
      | tok t =>
          rw [compilePieces]
          by_cases hmem : t ∈ tokens
          · rw [if_pos hmem]
            by_cases hseen : t ∈ seen
            · rw [if_pos hseen]
              exact ⟨hseen, ih seen⟩
            · rw [if_neg hseen]
              exact ⟨hseen, ih (t :: seen)⟩
          · rw [if_neg hmem]
            exact ih seen

/-! ## Lemmas on building one match record -/

theorem buildMatch_eq_ok {amt : AppMatch} {tv : PTemplate} {path : List Char}
    {env : Env} {m : AppMatch} :
    buildMatch amt tv path env = .ok m ↔
      ∃ v, renderVersion tv (intOfEnv env) = .ok v ∧
        m = dictUpdate
          (dictSet (dictSet amt "path" (.vstr (String.mk path))) "version"
            (.vstr v))
          ((intOfEnv env).map fun kv => (kv.1, Value.vint kv.2)) := by
  unfold buildMatch
  cases hr : renderVersion tv (intOfEnv env) with
  | ok v =>
      simp only [hr, Except.map]
      constructor
      · intro h
        cases h
        exact ⟨v, rfl, rfl⟩
      · rintro ⟨v', hv', hm⟩
        cases hv'
        rw [hm]
  | error e =>
      simp only [hr, Except.map]
      constructor
      · intro h; cases h
      · rintro ⟨v', hv', _⟩; cases hv'

theorem buildMatch_error {amt : AppMatch} {tv : PTemplate} {path : List Char}
    {env : Env} {e : PyErr}
    (hr : renderVersion tv (intOfEnv env) = .error e) :
    buildMatch amt tv path env = .error e := by
  unfold buildMatch
  rw [hr]
  rfl

theorem amt_get {tokens : List String} {t : String} (ht : t ∈ tokens) :
    dictGet? (tokens.map fun s => (s, Value.vint 0)) t = some (.vint 0) := by
  induction tokens with
  | nil => cases ht
  | cons s rest ih =>
      rw [List.map_cons, dictGet?_cons]
      by_cases hs : s = t
      · rw [if_pos hs]
      · rw [if_neg hs]
        exact ih ((List.mem_cons.mp ht).resolve_left fun e => hs e.symm)

/-- A token of the global list captured by no group of this template keeps its
zero-filled value (line 240). -/
theorem buildMatch_zero_fill {tokens : List String} {tv : PTemplate}
    {path : List Char} {env : Env} {m : AppMatch} {t : String}
    (hb : buildMatch (tokens.map fun s => (s, Value.vint 0)) tv path env = .ok m)
    (ht : t ∈ tokens) (henv : t ∉ env.map Prod.fst) (hp : t ≠ "path")
    (hv : t ≠ "version") : dictGet? m t = some (.vint 0) := by
  obtain ⟨v, _, hm⟩ := buildMatch_eq_ok.mp hb
  rw [hm]
  have hkeys : t ∉ ((intOfEnv env).map fun kv => (kv.1, Value.vint kv.2)).map
      Prod.fst := by
    intro hmem
    apply henv
    simpa [intOfEnv, Function.comp] using hmem
  rw [dictGet?_dictUpdate_notMem _ _ _ hkeys,
    dictGet?_dictSet_ne _ _ _ _ (fun e => hv e.symm),
    dictGet?_dictSet_ne _ _ _ _ (fun e => hp e.symm)]
  exact amt_get ht

/-- The final value stored under a captured token's key is its captured
integer (the `update` of line 292 wins over `path`/`version`). -/
theorem buildMatch_token_val {amt : AppMatch} {tv : PTemplate}
    {path : List Char} {env : Env} {m : AppMatch} {t : String} {ds : List Char}
    (hb : buildMatch amt tv path env = .ok m)
    (hnd : (env.map Prod.fst).Nodup) (hl : lookupEnv env t = some ds) :
    dictGet? m t = some (.vint (digitsToNat ds)) := by
  obtain ⟨v, _, hm⟩ := buildMatch_eq_ok.mp hb
  rw [hm]
  have hnd2 : (((intOfEnv env).map fun kv => (kv.1, Value.vint kv.2)).map
      Prod.fst).Nodup := by
    simpa [intOfEnv, Function.comp] using hnd
  have hmem : (t, Value.vint (digitsToNat ds)) ∈
      (intOfEnv env).map fun kv => (kv.1, Value.vint kv.2) := by
    have := lookupEnv_eq_some_mem hl
    exact List.mem_map.mpr ⟨(t, digitsToNat ds),
      List.mem_map.mpr ⟨(t, ds), this, rfl⟩, rfl⟩
  exact dictGet?_dictUpdate_mem _ _ _ _ hnd2 hmem

theorem lookup_intOfEnv {env : Env} {t : String} {n : Nat}
    (h : List.lookup t (intOfEnv env) = some n) :
    ∃ ds, lookupEnv env t = some ds ∧ n = digitsToNat ds := by
  induction env with
  | nil => simp [intOfEnv, List.lookup] at h
  | cons kv rest ih =>
      obtain ⟨k, v⟩ := kv
      rw [intOfEnv, List.map_cons] at h
      cases hbeq : (t == k) with
      | true =>
          simp only [List.lookup, hbeq] at h
          cases h
          have hk : k = t := (eq_of_beq hbeq).symm
          exact ⟨v, by rw [lookupEnv, if_pos hk], rfl⟩
      | false =>
          simp only [List.lookup, hbeq] at h
          have hk : ¬(k = t) := by
            intro e
            subst e
            simp at hbeq
          obtain ⟨ds, h1, h2⟩ := ih h
          exact ⟨ds, by rw [lookupEnv, if_neg hk]; exact h1, h2⟩

theorem renderPieces_agree :
    ∀ (tv : PTemplate) (e e' : List (String × Nat)) (cs : List Char),
      renderPieces tv e = .ok cs →
      (∀ t n, List.lookup t e = some n → List.lookup t e' = some n) →
      renderPieces tv e' = .ok cs := by
  intro tv
  induction tv with
  | nil =>
      intro e e' cs h _
      cases h
      rfl
  | cons p ps ih =>
      intro e e' cs h hag
      cases p with
      | ch c =>
          rw [renderPieces] at h ⊢
          cases hr : renderPieces ps e with
          | ok cs0 =>
              rw [hr] at h
              simp only [Except.map] at h
              cases h
              rw [ih e e' cs0 hr hag]
              rfl
          | error e0 =>
              rw [hr] at h
              simp only [Except.map] at h
              cases h
      | tok t =>
          rw [renderPieces] at h ⊢
          cases hl : List.lookup t e with
          | some n =>
              rw [hl] at h
              rw [hag t n hl]
              cases hr : renderPieces ps e with
              | ok cs0 =>
                  rw [hr] at h
                  simp only [Except.map] at h
                  cases h
                  rw [ih e e' cs0 hr hag]
                  rfl
              | error e0 =>
                  rw [hr] at h
                  simp only [Except.map] at h
                  cases h
          | none =>
              rw [hl] at h
              cases h

/-- Round trip of the version rendering for templates that do not declare a
token named `version`: the stored `version` entry is the rendered string, and
re-rendering the version sub-template with the record's integer entries
reproduces it. -/
theorem buildMatch_render_roundtrip {amt : AppMatch} {tv : PTemplate}
    {path : List Char} {env : Env} {m : AppMatch}
    (hb : buildMatch amt tv path env = .ok m)
    (hnd : (env.map Prod.fst).Nodup)
    (hver : "version" ∉ env.map Prod.fst) :
    dictGet? m "version" = some (.vstr (versionStr m)) ∧
      renderVersion tv (intEntries m) = .ok (versionStr m) := by
  obtain ⟨v, hr, hm⟩ := buildMatch_eq_ok.mp hb
  have hkeys : "version" ∉ ((intOfEnv env).map fun kv =>
      (kv.1, Value.vint kv.2)).map Prod.fst := by
    intro hmem
    apply hver
    simpa [intOfEnv, Function.comp] using hmem
  have hvget : dictGet? m "version" = some (.vstr v) := by
    rw [hm, dictGet?_dictUpdate_notMem _ _ _ hkeys, dictGet?_dictSet_self]
  have hvs : versionStr m = v := by
    rw [versionStr, hvget]
  refine ⟨by rw [hvget, hvs], ?_⟩
  rw [hvs]
  obtain ⟨cs, hcs, hv⟩ : ∃ cs, renderPieces tv (intOfEnv env) = .ok cs ∧
      v = String.mk cs := by
    rw [renderVersion] at hr
    cases hp : renderPieces tv (intOfEnv env) with
    | ok cs =>
        rw [hp] at hr
        cases hr
        exact ⟨cs, rfl, rfl⟩
    | error e =>
        rw [hp] at hr
        cases hr
  have hagree : ∀ t n, List.lookup t (intOfEnv env) = some n →
      List.lookup t (intEntries m) = some n := by
    intro t n hl
    obtain ⟨ds, hds, hn⟩ := lookup_intOfEnv hl
    have := buildMatch_token_val hb hnd hds
    rw [hn]
    exact lookup_intEntries m t (digitsToNat ds) this
  rw [renderVersion, renderPieces_agree tv (intOfEnv env) (intEntries m) cs
    hcs hagree, hv]
  rfl

theorem pendAt_subset :
    ∀ (ms : List AppMatch) (pend : List String) (i : Nat) (x : String),
      x ∈ pendAt pend ms i → x ∈ pend := by
  intro ms
  induction ms with
  | nil =>
      intro pend i x hx
      cases i with
      | zero => exact hx
      | succ i => exact hx
  | cons m rest ih =>
      intro pend i x hx
      cases i with
      | zero => exact hx
      | succ i => exact stepPend_subset (ih (stepPend m pend) i x hx)

/-- A rendering failure on the first (and only) candidate path of a
single-template run aborts `_glob_and_match` with that exception; no match
list is returned. -/
theorem globAndMatch_render_error (raw : PTemplate)
    (globFn : List Char → List (List Char)) (absFn : PTemplate → PTemplate)
    (prtokens tsort : List String) (vd : Option String) (td : TDict)
    (p : List Char) (env : Env) (e : PyErr)
    (hparse : parseTemplate absFn raw = .ok td)
    (hglob : globFn (formatGlob (collectTokens [raw]) td.tpath) = [p])
    (hmatch : reMatch (compileItems (collectTokens [raw]) td.tpath) p [] =
      some env)
    (hrender : renderVersion td.tversion (intOfEnv env) = .error e) :
    globAndMatch [raw] globFn absFn prtokens tsort vd = .error e := by
  have hparseAll : parseAll absFn [raw] = .ok [td] := by
    rw [parseAll, hparse]
    rfl
  have hbuild : buildMatch ((collectTokens [raw]).map fun t =>
      (t, Value.vint 0)) td.tversion p env = .error e :=
    buildMatch_error hrender
  have hmloop : matchLoop ((collectTokens [raw]).map fun t => (t, Value.vint 0))
      td.tversion (compileItems (collectTokens [raw]) td.tpath) [p] [] =
      .error e := by
    have h1 : matchLoop ((collectTokens [raw]).map fun t => (t, Value.vint 0))
        td.tversion (compileItems (collectTokens [raw]) td.tpath) [p] [] =
        (buildMatch ((collectTokens [raw]).map fun t => (t, Value.vint 0))
            td.tversion p env).bind fun m =>
          matchLoop ((collectTokens [raw]).map fun t => (t, Value.vint 0))
            td.tversion (compileItems (collectTokens [raw]) td.tpath) []
            ([] ++ [m]) := by
      rw [matchLoop, hmatch]
    rw [h1, hbuild]
    rfl
  have hgloop : globLoop (collectTokens [raw])
      ((collectTokens [raw]).map fun t => (t, Value.vint 0)) globFn [td] [] =
      .error e := by
    rw [globLoop, hglob, hmloop]
    rfl
  have hcollect : collectAllMatches [raw] globFn absFn = .error e := by
    rw [collectAllMatches, hparseAll]
    simpa using hgloop
  rw [globAndMatch, hcollect]
  rfl

/-- The first entry under key `t` holds an integer (the typing condition under
which Python's tuple sort compares without `TypeError`). -/
def isIntEntry (m : AppMatch) (t : String) : Bool :=
  match dictGet? m t with
  | some (.vint _) => true
  | _ => false

/-! # The claims -/

/-- Claim C1 — token back-reference consistency.  For a (bracket-stripped)
template whose placeholders are well-formed registered token names and in
which some token occurs at least twice, a glob-candidate path is matched (and
an `AppMatch` produced, line 282) exactly when the path decomposes along the
anchored, case-insensitive capture pattern with one and the same nonempty
digit string at every occurrence of each token: a path whose occurrences of a
repeated token carry differing digit strings admits no such decomposition and
is rejected; identical digit strings are accepted. -/
theorem claim1_token_backref_consistency (tokens : List String)
    (tpl : PTemplate) (path : List Char)
    (_hvalid : tpl.all (fun p =>
      match p with
      | .tok t => isTokenName t && t ≠ "" && tokens.contains t
      | .ch _ => true) = true)
    (_hrep : ∃ t, isTokenName t = true ∧
      2 ≤ tpl.countP (fun p => p == Piece.tok t)) :
    (reMatch (compileItems tokens tpl) path []).isSome = true ↔
      ∃ σ : String → List Char, Fills σ (compileItems tokens tpl) path := by
  constructor
  · intro h
    obtain ⟨env', he⟩ := Option.isSome_iff_exists.mp h
    exact ⟨_, reMatch_sound (compileItems tokens tpl) path [] env'
      (wf_compilePieces tokens tpl [])
      (fun kv hkv => absurd hkv (List.not_mem_nil kv)) he⟩
  · rintro ⟨σ, hf⟩
    exact reMatch_complete hf [] (wf_compilePieces tokens tpl [])
      (fun t v h => by cases h)

theorem claim1_witness :
    (reMatch (compileItems ["a"] [.tok "a", .ch '/', .tok "a"])
        ['1', '/', '1'] []).isSome = true ↔
      ∃ σ : String → List Char,
        Fills σ (compileItems ["a"] [.tok "a", .ch '/', .tok "a"])
          ['1', '/', '1'] :=
  claim1_token_backref_consistency ["a"] [.tok "a", .ch '/', .tok "a"]
    ['1', '/', '1'] (by decide) ⟨"a", by decide, by decide⟩

/-- Claim C2 — `latest` tagging.  In every invocation (inputs being untagged
records, with no pre-release token named after the reserved keys `latest` or
`tags`): at most one record is tagged `latest`; record `i` is tagged `latest`
exactly when it is the first record in sorted order carrying no pre-release
marker — no entry with non-`0` value whose key is still in the pending
pre-release list at its turn — so zero records are tagged when every record
carries a marker; and when no (truthy) explicit default version is configured
the `latest` record is also tagged `default`. -/
theorem claim2_latest_default_tagging (vd : Option String)
    (prtokens : List String) (ms : List AppMatch)
    (hclean : ∀ m ∈ ms, dictGet? m "tags" = none)
    (hlat : "latest" ∉ prtokens) (htags : "tags" ∉ prtokens) :
    (tagLoop vd ms false false prtokens).countP
        (fun m => hasTag m "latest") ≤ 1 ∧
    (∀ i, hasTag ((tagLoop vd ms false false prtokens).getD i [])
        "latest" = true ↔
      (i < ms.length ∧
       carriesMarker (ms.getD i []) (pendAt prtokens ms i) = false ∧
       ∀ j, j < i →
         carriesMarker (ms.getD j []) (pendAt prtokens ms j) = true)) ∧
    (vdTruthy vd = false → ∀ i,
      hasTag ((tagLoop vd ms false false prtokens).getD i [])
          "latest" = true →
      hasTag ((tagLoop vd ms false false prtokens).getD i [])
        "default" = true) := by
  have hconv : ∀ j, j < ms.length →
      markerAt (ms.getD j []) (pendAt prtokens ms j) =
        carriesMarker (ms.getD j []) (pendAt prtokens ms j) := by
    intro j hj
    apply markerAt_eq_carriesMarker
    · apply hclean
      rw [List.getD_eq_getElem _ _ hj]
      exact List.getElem_mem hj
    · exact fun hmem => htags (pendAt_subset ms prtokens j "tags" hmem)
  refine ⟨tagLoop_latest_count vd ms false prtokens hclean hlat, ?_,
    fun hvt i => tagLoop_latest_imp_default vd hvt ms false false prtokens
      hclean hlat i⟩
  intro i
  rw [tagLoop_latest_iff vd ms false prtokens hclean hlat i]
  constructor
  · rintro ⟨hi, hmid, hall⟩
    exact ⟨hi, by rw [← hconv i hi]; exact hmid,
      fun j hj => by rw [← hconv j (lt_trans hj hi)]; exact hall j hj⟩
  · rintro ⟨hi, hmid, hall⟩
    exact ⟨hi, by rw [hconv i hi]; exact hmid,
      fun j hj => by rw [hconv j (lt_trans hj hi)]; exact hall j hj⟩

def c2w_ms : List AppMatch :=
  [[("beta", .vint 1), ("path", .vstr "p1"), ("version", .vstr "2")],
   [("path", .vstr "p2"), ("version", .vstr "1")]]

theorem claim2_witness :
    (tagLoop none c2w_ms false false ["beta"]).countP
        (fun m => hasTag m "latest") ≤ 1 ∧
    (∀ i, hasTag ((tagLoop none c2w_ms false false ["beta"]).getD i [])
        "latest" = true ↔
      (i < c2w_ms.length ∧
       carriesMarker (c2w_ms.getD i []) (pendAt ["beta"] c2w_ms i) = false ∧
       ∀ j, j < i →
         carriesMarker (c2w_ms.getD j []) (pendAt ["beta"] c2w_ms j) = true)) ∧
    (vdTruthy none = false → ∀ i,
      hasTag ((tagLoop none c2w_ms false false ["beta"]).getD i [])
          "latest" = true →
      hasTag ((tagLoop none c2w_ms false false ["beta"]).getD i [])
        "default" = true) :=
  claim2_latest_default_tagging none ["beta"] c2w_ms (by decide) (by decide)
    (by decide)

/-- Claim C3 — sorting.  Restricted to inputs whose sort keys hold integer
token values (the only inputs Python orders without raising): the sort is a
permutation; with a non-empty `sortPriority` the output is descending in the
lexicographic order of the token-value tuples taken in `sortPriority` order
and stable (records with any given key tuple keep their input order); with an
empty `sortPriority` it is descending in the `version` string and stable.
Additionally, a global token captured by no group of a record's own template
contributes the zero-filled value `0` to its entries. -/
theorem claim3_sort_descending_stable (tsort : List String)
    (ms : List AppMatch)
    (_hints : ∀ m ∈ ms, ∀ t ∈ tsort, isIntEntry m t = true) :
    (sortMatches tsort ms).Perm ms ∧
    (tsort ≠ [] →
      (sortMatches tsort ms).Sorted (descRel (sortKey tsort) keyLE) ∧
      ∀ k : List Nat,
        (sortMatches tsort ms).filter (fun m => decide (sortKey tsort m = k)) =
          ms.filter (fun m => decide (sortKey tsort m = k))) ∧
    (tsort = [] →
      (sortMatches tsort ms).Sorted (descRel versionStr strLE) ∧
      ∀ s : String,
        (sortMatches tsort ms).filter (fun m => decide (versionStr m = s)) =
          ms.filter (fun m => decide (versionStr m = s))) ∧
    (∀ (tokens : List String) (tv : PTemplate) (p : List Char) (env : Env)
        (m : AppMatch) (t : String),
      buildMatch (tokens.map fun s => (s, Value.vint 0)) tv p env = .ok m →
      t ∈ tokens → t ∉ env.map Prod.fst → t ≠ "path" → t ≠ "version" →
      dictGet? m t = some (.vint 0)) := by
  refine ⟨?_, ?_, ?_, ?_⟩
  · rw [sortMatches]
    by_cases h1 : ms.isEmpty = true
    · rw [if_pos h1]
    · rw [if_neg h1]
      by_cases h2 : (!tsort.isEmpty) = true
      · rw [if_pos h2]
        exact List.perm_insertionSort _ ms
      · rw [if_neg h2]
        exact List.perm_insertionSort _ ms
  · intro hne
    have h2 : (!tsort.isEmpty) = true := by
      cases tsort with
      | nil => exact absurd rfl hne
      | cons a l => rfl
    by_cases h1 : ms.isEmpty = true
    · rw [List.isEmpty_iff] at h1
      subst h1
      exact ⟨List.sorted_nil, fun k => rfl⟩
    · rw [sortMatches, if_neg h1, if_pos h2]
      exact ⟨sorted_insertionSort_desc (sortKey tsort) keyLE keyLE_total
          keyLE_trans ms,
        fun k => filter_insertionSort_key (sortKey tsort) keyLE keyLE_refl ms k⟩
  · intro he
    subst he
    by_cases h1 : ms.isEmpty = true
    · rw [List.isEmpty_iff] at h1
      subst h1
      exact ⟨List.sorted_nil, fun s => rfl⟩
    · rw [sortMatches, if_neg h1]
      rw [show (!List.isEmpty ([] : List String)) = false from rfl, if_neg
        (by simp)]
      exact ⟨sorted_insertionSort_desc versionStr strLE strLE_total
          strLE_trans ms,
        fun s => filter_insertionSort_key versionStr strLE strLE_refl ms s⟩
  · intro tokens tv p env m t hb ht henv hp hv
    exact buildMatch_zero_fill hb ht henv hp hv

def c3w_ms : List AppMatch :=
  [[("major", .vint 1), ("path", .vstr "p1"), ("version", .vstr "1")],
   [("major", .vint 2), ("path", .vstr "p2"), ("version", .vstr "2")]]

theorem claim3_witness :
    (sortMatches ["major"] c3w_ms).Perm c3w_ms ∧
    (["major"] ≠ ([] : List String) →
      (sortMatches ["major"] c3w_ms).Sorted
        (descRel (sortKey ["major"]) keyLE) ∧
      ∀ k : List Nat,
        (sortMatches ["major"] c3w_ms).filter
            (fun m => decide (sortKey ["major"] m = k)) =
          c3w_ms.filter (fun m => decide (sortKey ["major"] m = k))) ∧
    (["major"] = ([] : List String) →
      (sortMatches ["major"] c3w_ms).Sorted (descRel versionStr strLE) ∧
      ∀ s : String,
        (sortMatches ["major"] c3w_ms).filter
            (fun m => decide (versionStr m = s)) =
          c3w_ms.filter (fun m => decide (versionStr m = s))) ∧
    (∀ (tokens : List String) (tv : PTemplate) (p : List Char) (env : Env)
        (m : AppMatch) (t : String),
      buildMatch (tokens.map fun s => (s, Value.vint 0)) tv p env = .ok m →
      t ∈ tokens → t ∉ env.map Prod.fst → t ≠ "path" → t ≠ "version" →
      dictGet? m t = some (.vint 0)) :=
  claim3_sort_descending_stable ["major"] c3w_ms (by decide)

/-- Claim C4 (as stated) is false: the explicit-default branch (lines 312-315)
is not guarded by `found_default`, so with `explicitDefaultVersion = "1.2"`
and two records whose version is `"1.2"` (and a pending pre-release token
keeping the early break off), **both** records are tagged `default`, not only
the first. -/
def c4cx_ms : List AppMatch :=
  [[("path", .vstr "p1"), ("version", .vstr "1.2")],
   [("path", .vstr "p2"), ("version", .vstr "1.2")]]

theorem claim4_counterexample :
    (tagLoop (some "1.2") c4cx_ms false false ["beta"]).countP
        (fun m => hasTag m "default") = 2 ∧
    hasTag ((tagLoop (some "1.2") c4cx_ms false false ["beta"]).getD 1 [])
      "default" = true := by
  refine ⟨?_, ?_⟩ <;> decide

/-- Claim C4 — amended.  With a truthy `explicitDefaultVersion` (and no
pre-release token named `default`), a record is tagged `default` exactly when
it is scanned before the loop's early stop and its stored version equals the
explicit default — *every* such record, not only the first. -/
theorem claim4_explicit_default_tagging (d : String) (prtokens : List String)
    (ms : List AppMatch) (hne : d ≠ "") (hdefp : "default" ∉ prtokens)
    (hclean : ∀ m ∈ ms, dictGet? m "tags" = none) :
    ∀ i, hasTag ((tagLoop (some d) ms false false prtokens).getD i [])
        "default" = true ↔
      (i < stopIdx (some d) ms false false prtokens ∧
       valEqStr d (dictGet? (ms.getD i []) "version") = true) :=
  tagLoop_default_iff (some d) d rfl hne ms false false prtokens hclean hdefp

theorem claim4_witness :
    hasTag ((tagLoop (some "1.2") c4cx_ms false false ["beta"]).getD 1 [])
        "default" = true ↔
      (1 < stopIdx (some "1.2") c4cx_ms false false ["beta"] ∧
       valEqStr "1.2" (dictGet? (c4cx_ms.getD 1 []) "version") = true) :=
  claim4_explicit_default_tagging "1.2" ["beta"] c4cx_ms (by decide)
    (by decide) (by decide) 1

/-- Claim C5 (as stated) is false: when the owning template declares a token
named `version`, the `update` of line 292 overwrites the rendered version
string with the token's captured integer, so re-rendering the version
sub-template no longer reproduces the `version` field (the field is not even
a string). -/
def c5amt : AppMatch := [("version", Value.vint 0)]

def c5tv : PTemplate := [Piece.tok "version"]

def c5env : Env := [("version", ['7'])]

def c5m : AppMatch := [("version", Value.vint 7), ("path", Value.vstr "a7")]

theorem claim5_counterexample :
    buildMatch c5amt c5tv ['a', '7'] c5env = .ok c5m ∧
    renderVersion c5tv (intEntries c5m) = .ok "7" ∧
    dictGet? c5m "version" ≠ some (.vstr "7") := by
  refine ⟨rfl, rfl, by decide⟩

/-- Claim C5 — amended.  For every produced `AppMatch` whose capture
environment binds no token named `version` (and has duplicate-free group
names), the `version` field is the rendered string and re-rendering the
owning template's version sub-template with the record's token-value entries
reproduces it exactly. -/
theorem claim5_version_roundtrip (amt : AppMatch) (tv : PTemplate)
    (path : List Char) (env : Env) (m : AppMatch)
    (hb : buildMatch amt tv path env = .ok m)
    (hnd : (env.map Prod.fst).Nodup)
    (hver : "version" ∉ env.map Prod.fst) :
    dictGet? m "version" = some (.vstr (versionStr m)) ∧
      renderVersion tv (intEntries m) = .ok (versionStr m) :=
  buildMatch_render_roundtrip hb hnd hver

def c5w_m : AppMatch :=
  [("major", Value.vint 3), ("path", Value.vstr "b3"),
   ("version", Value.vstr "3")]

theorem claim5_witness :
    dictGet? c5w_m "version" = some (.vstr (versionStr c5w_m)) ∧
      renderVersion [Piece.tok "major"] (intEntries c5w_m) =
        .ok (versionStr c5w_m) :=
  claim5_version_roundtrip [("major", Value.vint 0)] [Piece.tok "major"]
    ['b', '3'] [("major", ['3'])] c5w_m rfl (by decide) (by decide)

/-- Claim C6 (as stated) is false: the early break is observable.  With
`explicitDefaultVersion = "1.2"`, no pre-release tokens, and sorted versions
`1.3, 1.2, 1.2`, the break fires after the second record, leaving the third
without a `tags` entry and without the `default` tag the full scan would give
it. -/
def c6cx_ms : List AppMatch :=
  [[("path", .vstr "p1"), ("version", .vstr "1.3")],
   [("path", .vstr "p2"), ("version", .vstr "1.2")],
   [("path", .vstr "p3"), ("version", .vstr "1.2")]]

theorem claim6_counterexample :
    tagLoop (some "1.2") c6cx_ms false false [] ≠
      tagLoopNoBreak (some "1.2") c6cx_ms false false [] := by
  decide

/-- Claim C6 — amended.  When no explicit default version is configured the
early-stop condition (which requires `found_default`) never fires, and the
tagging pass is observably identical to the full scan of the entire sorted
sequence. -/
theorem claim6_break_free_equivalence (ms : List AppMatch) (fl : Bool)
    (pend : List String) :
    tagLoop none ms fl false pend = tagLoopNoBreak none ms fl false pend :=
  tagLoop_eq_noBreak none rfl ms fl pend

/-- Claim C7 (as stated) is false: with a duplicated pre-release token list
`["beta", "beta"]`, `prtokens.pop` removes only one copy, and the name `beta`
is appended as a tag to two records. -/
def c7cx_ms : List AppMatch :=
  [[("beta", .vint 1), ("path", .vstr "p1"), ("version", .vstr "2")],
   [("beta", .vint 1), ("path", .vstr "p2"), ("version", .vstr "1")]]

theorem claim7_counterexample :
    (tagLoop none c7cx_ms false false ["beta", "beta"]).countP
      (fun m => hasTag m "beta") = 2 := by
  decide

/-- Claim C7 — amended.  For a duplicate-free pre-release token list that
avoids the reserved names `latest`, `default` and `tags` (and untagged input
records with unique keys): each pre-release token name is appended as a tag
to at most one record per invocation, namely exactly the first record in
sorted order whose entry under that name is non-zero. -/
theorem claim7_prerelease_tag_exclusivity (vd : Option String)
    (prtokens : List String) (ms : List AppMatch) (name : String)
    (hclean : ∀ m ∈ ms, dictGet? m "tags" = none)
    (hkeys : ∀ m ∈ ms, (m.map Prod.fst).Nodup)
    (hnd : prtokens.Nodup) (hlat : "latest" ∉ prtokens)
    (hdef : "default" ∉ prtokens) (htags : "tags" ∉ prtokens)
    (hname : name ∈ prtokens) :
    (tagLoop vd ms false false prtokens).countP
        (fun m => hasTag m name) ≤ 1 ∧
    ∀ i, hasTag ((tagLoop vd ms false false prtokens).getD i []) name = true ↔
      (i < ms.length ∧ nonzeroEntry (ms.getD i []) name = true ∧
       ∀ j, j < i → nonzeroEntry (ms.getD j []) name = false) :=
  ⟨tagLoop_prname_count vd name ms false false prtokens hclean hkeys hnd hlat
      hdef htags hname,
    fun i => tagLoop_prname_iff vd name ms false false prtokens hclean hkeys
      hnd hlat hdef htags hname i⟩

theorem claim7_witness :
    (tagLoop none c7cx_ms false false ["beta"]).countP
        (fun m => hasTag m "beta") ≤ 1 ∧
    ∀ i, hasTag ((tagLoop none c7cx_ms false false ["beta"]).getD i [])
        "beta" = true ↔
      (i < c7cx_ms.length ∧ nonzeroEntry (c7cx_ms.getD i []) "beta" = true ∧
       ∀ j, j < i → nonzeroEntry (c7cx_ms.getD j []) "beta" = false) :=
  claim7_prerelease_tag_exclusivity none ["beta"] c7cx_ms "beta" (by decide)
    (by decide) (by decide) (by decide) (by decide) (by decide) (by decide)

/-- Claim C8 (as stated) is false: a version sub-template referencing a name
outside the template's token set (here the non-lowercase `{Q}`, which the
token regex does not register) makes `str.format` raise a bare `KeyError` —
not the `ConfigError`/`ClickException` channel the claim requires.  The run
does abort with no partial results, but with the wrong error kind. -/
def c8tpl : PTemplate :=
  [.ch 'a', .ch '[', .tok "x", .tok "Q", .ch ']']

def c8glob : List Char → List (List Char) := fun _ => [['a', '1', '{', 'Q', '}']]

theorem claim8_counterexample :
    globAndMatch [c8tpl] c8glob id [] [] none = .error (.keyError "Q") := by
  rfl

/-- Claim C8 — amended.  When a single-template run finds a candidate path
whose capture succeeds but whose version rendering raises (`KeyError` on a
name the sub-template references but the captured token mapping lacks), the
whole run aborts with exactly that exception and returns no partial results —
but through the raw exception channel, not as a `ConfigError`. -/
theorem claim8_render_failure_aborts (raw : PTemplate)
    (globFn : List Char → List (List Char)) (absFn : PTemplate → PTemplate)
    (prtokens tsort : List String) (vd : Option String) (td : TDict)
    (p : List Char) (env : Env) (e : PyErr)
    (hparse : parseTemplate absFn raw = .ok td)
    (hglob : globFn (formatGlob (collectTokens [raw]) td.tpath) = [p])
    (hmatch : reMatch (compileItems (collectTokens [raw]) td.tpath) p [] =
      some env)
    (hrender : renderVersion td.tversion (intOfEnv env) = .error e) :
    globAndMatch [raw] globFn absFn prtokens tsort vd = .error e :=
  globAndMatch_render_error raw globFn absFn prtokens tsort vd td p env e
    hparse hglob hmatch hrender

theorem claim8_witness :
    globAndMatch [c8tpl] c8glob id [] [] none = .error (.keyError "Q") :=
  claim8_render_failure_aborts c8tpl c8glob id [] [] none
    ⟨[.ch 'a', .tok "x", .tok "Q"], [.tok "x", .tok "Q"]⟩
    ['a', '1', '{', 'Q', '}'] [("x", ['1'])] (.keyError "Q") rfl rfl rfl rfl

/-- Claim C10 — field shadowing by tokens named `version` or `path`.  The
captured token values are merged (line 292) after the `path` and `version`
fields are set, so a template declaring a token `version` (resp. `path`)
leaves the corresponding field holding the token's captured integer, not the
rendered version string (resp. the matched path). -/
theorem claim10_token_shadowing (amt : AppMatch) (tv : PTemplate)
    (path : List Char) (env : Env) (m : AppMatch)
    (hb : buildMatch amt tv path env = .ok m)
    (hnd : (env.map Prod.fst).Nodup) :
    (∀ ds, lookupEnv env "version" = some ds →
      dictGet? m "version" = some (.vint (digitsToNat ds))) ∧
    (∀ ds, lookupEnv env "path" = some ds →
      dictGet? m "path" = some (.vint (digitsToNat ds))) :=
  ⟨fun _ h => buildMatch_token_val hb hnd h,
    fun _ h => buildMatch_token_val hb hnd h⟩

def c10m : AppMatch := [("version", Value.vint 7), ("path", Value.vint 12)]

theorem claim10_witness :
    (∀ ds, lookupEnv [("version", ['7']), ("path", ['1', '2'])] "version" =
        some ds → dictGet? c10m "version" = some (.vint (digitsToNat ds))) ∧
    (∀ ds, lookupEnv [("version", ['7']), ("path", ['1', '2'])] "path" =
        some ds → dictGet? c10m "path" = some (.vint (digitsToNat ds))) :=
  claim10_token_shadowing [("version", Value.vint 0), ("path", Value.vint 0)]
    [Piece.tok "version"] ['z'] [("version", ['7']), ("path", ['1', '2'])]
    c10m rfl (by decide)

end Appfind
